import Mathlib

/-!
Verification development for the replicated hierarchical key-value store
("the Tree") of the splash repository.  The repository ships the doctest
suite exercising the Tree (Tree::Root, branches, leaves, seeds, queue)
and the callers (Scene/Camera), but the Tree implementation itself
(core/tree.h / tree.cpp) is not among the provided sources, so the data
model and every operation below are modelled from the specification and
checked against the behaviour the doctest suite pins down.
-/

namespace Splash

/-- Modelled from the spec: a Value is a tagged, ordered sequence of
scalars (numbers, strings, booleans, or nested value sequences), each
entry optionally named; compared structurally.  The missing source is
core/value.h. -/
inductive Value where
  | num : Int → Value
  | str : String → Value
  | boolean : Bool → Value
  | arr : List Value → Value
  | named : String → Value → Value

/-- Modelled from the spec: the empty Value, the default payload of a
freshly created Leaf. -/
def emptyValue : Value := .arr []

/-- Modelled from the spec: a Leaf is a named node holding one Value, a
last-modification timestamp and a registry of change callbacks (keyed by
monotonically assigned ids).  Instants are modelled as naturals.  The
missing source is core/tree.h (Tree::Leaf). -/
structure Leaf where
  name : String
  value : Value
  timestamp : Nat
  callbacks : List Nat
  nextCallback : Nat

/-- Modelled from the spec: a Branch is a named node owning uniquely
named child Branches and uniquely named child Leaves (two separate
namespaces).  The missing source is core/tree.h (Tree::Branch). -/
inductive Branch where
  | mk : String → List Branch → List Leaf → Branch

def Branch.name : Branch → String
  | .mk n _ _ => n

def Branch.branches : Branch → List Branch
  | .mk _ bs _ => bs

def Branch.leaves : Branch → List Leaf
  | .mk _ _ ls => ls

def Branch.withBranches (b : Branch) (bs : List Branch) : Branch :=
  .mk b.name bs b.leaves

def Branch.withLeaves (b : Branch) (ls : List Leaf) : Branch :=
  .mk b.name b.branches ls

def Branch.withName (b : Branch) (m : String) : Branch :=
  .mk m b.branches b.leaves

/-- Modelled from the spec: the error taxonomy of the Tree
(section 7 of the spec), plus the programming-contract violation for a
malformed Seed. -/
inductive TreeError where
  | pathNotFound
  | nameCollision
  | notFound
  | staleUpdate
  | malformedSeed
deriving DecidableEq

/-- Modelled from the spec: the retrievable error message for each
failure kind. -/
def TreeError.message : TreeError → String
  | .pathNotFound => "path not found"
  | .nameCollision => "name collision"
  | .notFound => "target not found"
  | .staleUpdate => "stale update"
  | .malformedSeed => "malformed seed"

/-- Modelled from the spec: the task kinds a Seed can carry. -/
inductive Task where
  | addBranch
  | addLeaf
  | removeBranch
  | removeLeaf
  | renameBranch
  | renameLeaf
  | setLeaf
  | addSubtree
deriving DecidableEq

/-- Modelled from the spec: the argument payload of a Seed: nothing, a
Value, a new name (for renames), or a full subtree (for splices of
previously cut branches). -/
inductive Payload where
  | empty
  | val : Value → Payload
  | newName : String → Payload
  | subtree : Branch → Payload

/-- Paths are slash-delimited in the source; here a path is its list of
segments (the root path is the empty list). -/
abbrev Path := List String

/-- Modelled from the spec: a Seed is a single mutation record, the unit
of replication: a task kind, a target path, an argument payload and a
timestamp. -/
structure Seed where
  task : Task
  path : Path
  args : Payload
  timestamp : Nat

/-- A callback invocation record: which callback id fired, with the new
Value and its timestamp. -/
structure Event where
  cb : Nat
  value : Value
  timestamp : Nat

/-- Splits a nonempty path into its parent path and final segment. -/
def splitLast : Path → Option (Path × String)
  | [] => none
  | [n] => some ([], n)
  | n :: m :: rest => (splitLast (m :: rest)).map (fun q => (n :: q.1, q.2))

def Branch.findBranch (b : Branch) (n : String) : Option Branch :=
  b.branches.find? (fun c => c.name == n)

def Branch.findLeaf (b : Branch) (n : String) : Option Leaf :=
  b.leaves.find? (fun l => l.name == n)

/-- Replaces the first branch named n of the list by the given branch. -/
def replaceFirstBranch (n : String) (c2 : Branch) : List Branch → List Branch
  | [] => []
  | x :: xs => if x.name == n then c2 :: xs else x :: replaceFirstBranch n c2 xs

/-- Modelled from the spec: path resolution walks the branch graph
segment by segment (section 4.1). -/
def Branch.resolve (b : Branch) : Path → Option Branch
  | [] => some b
  | n :: rest =>
    match b.findBranch n with
    | none => none
    | some c => c.resolve rest

/-- Modelled from the spec: existence predicate for a branch at a path
(never fails). -/
def Branch.hasBranchIn (b : Branch) : Path → Bool
  | [] => true
  | n :: rest =>
    match b.findBranch n with
    | none => false
    | some c => c.hasBranchIn rest

/-- Modelled from the spec: existence predicate for a leaf at a path
(never fails). -/
def Branch.hasLeafIn (b : Branch) : Path → Bool
  | [] => false
  | [n] => (b.findLeaf n).isSome
  | n :: m :: rest =>
    match b.findBranch n with
    | none => false
    | some c => c.hasLeafIn (m :: rest)

/-- Applies a fallible transformation to the branch at a path, rebuilding
the spine; resolving a missing intermediate segment fails the whole
operation with PathNotFound (section 4.1 of the spec). -/
def Branch.modifyAt {α : Type} (b : Branch) (p : Path)
    (f : Branch → Except TreeError (Branch × α)) : Except TreeError (Branch × α) :=
  match p with
  | [] => f b
  | n :: rest =>
    match b.findBranch n with
    | none => .error .pathNotFound
    | some c =>
      match c.modifyAt rest f with
      | .error e => .error e
      | .ok q => .ok (b.withBranches (replaceFirstBranch n q.1 b.branches), q.2)

/-- Variant of modifyAt for transformations with no extra output. -/
def Branch.updateAt (b : Branch) (p : Path)
    (f : Branch → Except TreeError Branch) : Except TreeError Branch :=
  match b.modifyAt p (fun x => (f x).map (fun y => (y, ()))) with
  | .error e => .error e
  | .ok q => .ok q.1

/-- Substitutes the branch at a path (used to state what modifyAt does). -/
def Branch.replaceAt (b : Branch) (p : Path) (c2 : Branch) : Branch :=
  match p with
  | [] => c2
  | n :: rest =>
    match b.findBranch n with
    | none => b
    | some c => b.withBranches (replaceFirstBranch n (c.replaceAt rest c2) b.branches)

/-- Modelled from the spec: inserting a branch under a parent fails with
NameCollision when a branch or leaf of that name already exists there
(section 4.2: create "fails if ... a branch or leaf already exists at
path"; splices "fail on name collision"). -/
def Branch.insertBranchUnder (par : Branch) (c : Branch) : Except TreeError Branch :=
  if (par.findBranch c.name).isSome || (par.findLeaf c.name).isSome then .error .nameCollision
  else .ok (par.withBranches (par.branches ++ [c]))

/-- Modelled from the spec: inserting a leaf under a parent, with the
same existence checks. -/
def Branch.insertLeafUnder (par : Branch) (l : Leaf) : Except TreeError Branch :=
  if (par.findBranch l.name).isSome || (par.findLeaf l.name).isSome then .error .nameCollision
  else .ok (par.withLeaves (par.leaves ++ [l]))

/-- Modelled from the spec: createBranchAt creates an empty Branch at the
path after the existence checks. -/
def Branch.createBranch (b : Branch) (p : Path) : Except TreeError Branch :=
  match splitLast p with
  | none => .error .pathNotFound
  | some q => b.updateAt q.1 (fun par => par.insertBranchUnder (.mk q.2 [] []))

/-- Modelled from the spec: addBranchAt splices a previously cut subtree
under the parent path, taking ownership. -/
def Branch.spliceBranch (b : Branch) (pp : Path) (c : Branch) : Except TreeError Branch :=
  b.updateAt pp (fun par => par.insertBranchUnder c)

/-- Modelled from the spec: createLeafAt creates a Leaf with the given
Value and creation timestamp after the existence checks. -/
def Branch.createLeaf (b : Branch) (p : Path) (v : Value) (t : Nat) : Except TreeError Branch :=
  match splitLast p with
  | none => .error .pathNotFound
  | some q => b.updateAt q.1 (fun par => par.insertLeafUnder ⟨q.2, v, t, [], 0⟩)

/-- Modelled from the spec: addLeafAt splices a previously cut leaf under
the parent path. -/
def Branch.spliceLeaf (b : Branch) (pp : Path) (l : Leaf) : Except TreeError Branch :=
  b.updateAt pp (fun par => par.insertLeafUnder l)

/-- Modelled from the spec: removing a branch under a parent fails with
NotFound when no such branch exists. -/
def Branch.removeBranchUnder (par : Branch) (n : String) : Except TreeError Branch :=
  if (par.findBranch n).isSome then
    .ok (par.withBranches (par.branches.filter (fun c => !(c.name == n))))
  else .error .notFound

/-- Modelled from the spec: removing a leaf under a parent. -/
def Branch.removeLeafUnder (par : Branch) (n : String) : Except TreeError Branch :=
  if (par.findLeaf n).isSome then
    .ok (par.withLeaves (par.leaves.filter (fun l => !(l.name == n))))
  else .error .notFound

/-- Modelled from the spec: removeBranchAt destroys the subtree at the
path. -/
def Branch.removeBranch (b : Branch) (p : Path) : Except TreeError Branch :=
  match splitLast p with
  | none => .error .pathNotFound
  | some q => b.updateAt q.1 (fun par => par.removeBranchUnder q.2)

/-- Modelled from the spec: removeLeafAt destroys the leaf at the path. -/
def Branch.removeLeaf (b : Branch) (p : Path) : Except TreeError Branch :=
  match splitLast p with
  | none => .error .pathNotFound
  | some q => b.updateAt q.1 (fun par => par.removeLeafUnder q.2)

/-- Modelled from the spec: cutBranchAt detaches the subtree at the path
and returns it to the caller with full ownership transfer. -/
def Branch.cutBranch (b : Branch) (p : Path) : Except TreeError (Branch × Branch) :=
  match splitLast p with
  | none => .error .pathNotFound
  | some q =>
    b.modifyAt q.1 (fun par =>
      match par.findBranch q.2 with
      | none => .error .notFound
      | some c => .ok (par.withBranches (par.branches.filter (fun x => !(x.name == q.2))), c))

/-- Modelled from the spec: cutLeafAt detaches the leaf at the path and
returns it to the caller. -/
def Branch.cutLeaf (b : Branch) (p : Path) : Except TreeError (Branch × Leaf) :=
  match splitLast p with
  | none => .error .pathNotFound
  | some q =>
    b.modifyAt q.1 (fun par =>
      match par.findLeaf q.2 with
      | none => .error .notFound
      | some l => .ok (par.withLeaves (par.leaves.filter (fun x => !(x.name == q.2))), l))

/-- Modelled from the spec: renaming a branch is an atomic identity
change preserving the subtree; it fails with NotFound when the path does
not exist and with NameCollision when the new name collides with an
existing sibling branch (same namespace). -/
def Branch.renameBranchUnder (par : Branch) (n m : String) : Except TreeError Branch :=
  match par.findBranch n with
  | none => .error .notFound
  | some _ =>
    if (par.findBranch m).isSome then .error .nameCollision
    else .ok (par.withBranches (par.branches.map (fun c => if c.name == n then c.withName m else c)))

/-- Modelled from the spec: renaming a leaf, preserving its value,
timestamp and callback registrations. -/
def Branch.renameLeafUnder (par : Branch) (n m : String) : Except TreeError Branch :=
  match par.findLeaf n with
  | none => .error .notFound
  | some _ =>
    if (par.findLeaf m).isSome then .error .nameCollision
    else .ok (par.withLeaves (par.leaves.map (fun l => if l.name == n then { l with name := m } else l)))

def Branch.renameBranch (b : Branch) (p : Path) (m : String) : Except TreeError Branch :=
  match splitLast p with
  | none => .error .pathNotFound
  | some q => b.updateAt q.1 (fun par => par.renameBranchUnder q.2 m)

def Branch.renameLeaf (b : Branch) (p : Path) (m : String) : Except TreeError Branch :=
  match splitLast p with
  | none => .error .pathNotFound
  | some q => b.updateAt q.1 (fun par => par.renameLeafUnder q.2 m)

/-- Modelled from the spec: SetLeaf is resolved by last-writer-wins on
timestamp: the new value is applied only if its timestamp is strictly
greater than the Leaf's current timestamp, updating value and timestamp
atomically and firing every registered callback with the new value and
its timestamp; an equal or older timestamp is rejected as StaleUpdate
with the value left untouched. -/
def Branch.setLeafUnder (par : Branch) (n : String) (v : Value) (t : Nat) :
    Except TreeError (Branch × List Event) :=
  match par.findLeaf n with
  | none => .error .notFound
  | some l =>
    if l.timestamp < t then
      .ok (par.withLeaves (par.leaves.map (fun x =>
             if x.name == n then { x with value := v, timestamp := t } else x)),
           l.callbacks.map (fun c => ⟨c, v, t⟩))
    else .error .staleUpdate

def Branch.setLeaf (b : Branch) (p : Path) (v : Value) (t : Nat) :
    Except TreeError (Branch × List Event) :=
  match splitLast p with
  | none => .error .pathNotFound
  | some q => b.modifyAt q.1 (fun par => par.setLeafUnder q.2 v t)

/-- Modelled from the spec: Leaf.addCallback registers a handler and
returns a unique, monotonically assigned identifier. -/
def Leaf.addCallback (l : Leaf) : Leaf × Nat :=
  ({ l with callbacks := l.callbacks ++ [l.nextCallback], nextCallback := l.nextCallback + 1 },
   l.nextCallback)

/-- Modelled from the spec: Leaf.removeCallback deregisters a handler by
id, returning false if the id is unknown. -/
def Leaf.removeCallback (l : Leaf) (cb : Nat) : Leaf × Bool :=
  if l.callbacks.contains cb then
    ({ l with callbacks := l.callbacks.filter (fun c => !(c == cb)) }, true)
  else (l, false)

/-- Modelled from the spec: registering a callback on the leaf at a path. -/
def Branch.addCallbackAt (b : Branch) (p : Path) : Except TreeError (Branch × Nat) :=
  match splitLast p with
  | none => .error .pathNotFound
  | some q =>
    b.modifyAt q.1 (fun par =>
      match par.findLeaf q.2 with
      | none => .error .notFound
      | some l =>
        .ok (par.withLeaves (par.leaves.map (fun x =>
               if x.name == q.2 then (x.addCallback).1 else x)),
             (l.addCallback).2))

/-- Modelled from the spec: deregistering a callback on the leaf at a
path. -/
def Branch.removeCallbackAt (b : Branch) (p : Path) (cb : Nat) : Except TreeError (Branch × Bool) :=
  match splitLast p with
  | none => .error .pathNotFound
  | some q =>
    b.modifyAt q.1 (fun par =>
      match par.findLeaf q.2 with
      | none => .error .notFound
      | some l =>
        .ok (par.withLeaves (par.leaves.map (fun x =>
               if x.name == q.2 then (x.removeCallback cb).1 else x)),
             (l.removeCallback cb).2))

/-- Read access to the leaf stored at a path, when there is one. -/
def Branch.getLeafAtPath (b : Branch) (p : Path) : Option Leaf :=
  match splitLast p with
  | none => none
  | some q =>
    match b.resolve q.1 with
    | none => none
    | some par => par.findLeaf q.2

/-- One entry of the canonical flattening of a tree: the path of a node,
with none for a branch and the held Value for a leaf. -/
abbrev CanonEntry := List String × Option Value

/-- Flattens a branch into the list of its node entries (its own path,
its leaves with their values, and recursively all descendants).
Timestamps and callback registries are deliberately not part of an
entry: spec section 4.7 excludes them from equality. -/
def canonNode : Branch → List String → List CanonEntry
  | .mk _ bs ls, p =>
    ((p, (none : Option Value)) :: ls.map (fun l => (p ++ [l.name], some l.value))) ++
    (bs.attach.map (fun c => canonNode c.1 (p ++ [c.1.name]))).flatten
decreasing_by
  have h := List.sizeOf_lt_of_mem c.2
  simp only [Branch.mk.sizeOf_spec]
  omega

/-- Lexicographic comparison of paths, segment by segment. -/
def pathCmp : List String → List String → Ordering
  | [], [] => .eq
  | [], _ :: _ => .lt
  | _ :: _, [] => .gt
  | a :: as, b :: bs =>
    match compare a b with
    | .lt => .lt
    | .gt => .gt
    | .eq => pathCmp as bs

/-- Order on canonical entries: by path, branch entries before leaf
entries at the same path. -/
def entryLe (a b : CanonEntry) : Bool :=
  match pathCmp a.1 b.1 with
  | .lt => true
  | .gt => false
  | .eq => !a.2.isSome || b.2.isSome

def insertEntry (x : CanonEntry) : List CanonEntry → List CanonEntry
  | [] => [x]
  | y :: ys => if entryLe x y then x :: y :: ys else y :: insertEntry x ys

def sortEntries : List CanonEntry → List CanonEntry
  | [] => []
  | x :: xs => insertEntry x (sortEntries xs)

/-- The canonical form of a branch graph: its node entries sorted by
path.  Insensitive to sibling order, leaf timestamps and callback
registrations. -/
def Branch.canon (b : Branch) : List CanonEntry :=
  sortEntries (canonNode b [])

/-- Modelled from the spec: the Tree (Root) owns the root Branch, the
outgoing seed journal, the incoming Queue and the pending error state.
The missing source is core/tree.h (Tree::Root). -/
structure Root where
  root : Branch
  journal : List Seed
  queue : List Seed
  error : Option TreeError

/-- Modelled from the spec: a Tree is created empty: a root Branch with
no children, empty journal and queue, no pending error. -/
def emptyRoot : Root :=
  { root := .mk "" [] [], journal := [], queue := [], error := none }

/-- Modelled from the spec: two Trees are equal iff recursively equal by
branch/leaf name sets and by Leaf Value content, timestamps excluded
(section 4.7). -/
def treeEquiv (A B : Root) : Prop :=
  A.root.canon = B.root.canon

/-- Shared outcome handling of a structural mutation: on success install
the new root and append the journal entry, on failure record the error
and change nothing else. -/
def Root.onStruct (T : Root) (res : Except TreeError Branch) (s : Seed) : Root × Bool :=
  match res with
  | .ok r => ({ T with root := r, journal := T.journal ++ [s] }, true)
  | .error e => ({ T with error := some e }, false)

/-- Modelled from the spec: createBranchAt, journalling AddBranch on
success; t is the current instant. -/
def Root.createBranchAt (T : Root) (p : Path) (t : Nat) : Root × Bool :=
  T.onStruct (T.root.createBranch p) ⟨.addBranch, p, .empty, t⟩

/-- Modelled from the spec: createLeafAt, journalling AddLeaf carrying
the initial value. -/
def Root.createLeafAt (T : Root) (p : Path) (v : Value) (t : Nat) : Root × Bool :=
  T.onStruct (T.root.createLeaf p v t) ⟨.addLeaf, p, .val v, t⟩

/-- Modelled from the spec: removeBranchAt, journalling RemoveBranch. -/
def Root.removeBranchAt (T : Root) (p : Path) (t : Nat) : Root × Bool :=
  T.onStruct (T.root.removeBranch p) ⟨.removeBranch, p, .empty, t⟩

/-- Modelled from the spec: removeLeafAt, journalling RemoveLeaf. -/
def Root.removeLeafAt (T : Root) (p : Path) (t : Nat) : Root × Bool :=
  T.onStruct (T.root.removeLeaf p) ⟨.removeLeaf, p, .empty, t⟩

/-- Modelled from the spec: renameBranchAt, journalling RenameBranch
carrying the new name. -/
def Root.renameBranchAt (T : Root) (p : Path) (m : String) (t : Nat) : Root × Bool :=
  T.onStruct (T.root.renameBranch p m) ⟨.renameBranch, p, .newName m, t⟩

/-- Modelled from the spec: renameLeafAt, journalling RenameLeaf. -/
def Root.renameLeafAt (T : Root) (p : Path) (m : String) (t : Nat) : Root × Bool :=
  T.onStruct (T.root.renameLeaf p m) ⟨.renameLeaf, p, .newName m, t⟩

/-- Modelled from the spec: setValueForLeafAt applies last-writer-wins
conflict resolution; on acceptance it journals SetLeaf with the accepted
timestamp and reports the synchronously fired callbacks. -/
def Root.setValueForLeafAt (T : Root) (p : Path) (v : Value) (t : Nat) :
    Root × Bool × List Event :=
  match T.root.setLeaf p v t with
  | .ok q =>
    ({ T with root := q.1, journal := T.journal ++ [⟨.setLeaf, p, .val v, t⟩] }, true, q.2)
  | .error e => ({ T with error := some e }, false, [])

/-- Modelled from the spec: cutBranchAt detaches and returns the subtree,
journalling the equivalent RemoveBranch; none if the path does not
exist. -/
def Root.cutBranchAt (T : Root) (p : Path) (t : Nat) : Root × Option Branch :=
  match T.root.cutBranch p with
  | .ok q =>
    ({ T with root := q.1, journal := T.journal ++ [⟨.removeBranch, p, .empty, t⟩] }, some q.2)
  | .error e => ({ T with error := some e }, none)

/-- Modelled from the spec: cutLeafAt detaches and returns the leaf,
journalling the equivalent RemoveLeaf. -/
def Root.cutLeafAt (T : Root) (p : Path) (t : Nat) : Root × Option Leaf :=
  match T.root.cutLeaf p with
  | .ok q =>
    ({ T with root := q.1, journal := T.journal ++ [⟨.removeLeaf, p, .empty, t⟩] }, some q.2)
  | .error e => ({ T with error := some e }, none)

/-- Modelled from the spec: addBranchAt splices a previously cut subtree
under the parent path and journals an AddBranch-equivalent seed carrying
the full subtree contents (AddSubtree), so a peer can reconstruct it. -/
def Root.addBranchAt (T : Root) (pp : Path) (c : Branch) (t : Nat) : Root × Bool :=
  T.onStruct (T.root.spliceBranch pp c) ⟨.addSubtree, pp, .subtree c, t⟩

/-- Modelled from the spec: addLeafAt splices a previously cut leaf under
the parent path and journals an AddLeaf-equivalent seed carrying the full
leaf contents (its value and its timestamp). -/
def Root.addLeafAt (T : Root) (pp : Path) (l : Leaf) : Root × Bool :=
  T.onStruct (T.root.spliceLeaf pp l) ⟨.addLeaf, pp ++ [l.name], .val l.value, l.timestamp⟩

/-- Modelled from the spec: existence predicate for a branch. -/
def Root.hasBranchAt (T : Root) (p : Path) : Bool :=
  T.root.hasBranchIn p

/-- Modelled from the spec: existence predicate for a leaf. -/
def Root.hasLeafAt (T : Root) (p : Path) : Bool :=
  T.root.hasLeafIn p

/-- Direct access to the live Leaf object at a path, observed in the
doctest suite (absent from the spec API surface). -/
def Root.getLeafAt (T : Root) (p : Path) : Option Leaf :=
  T.root.getLeafAtPath p

/-- Modelled from the spec: read-only value query; none when the path
does not resolve to a Leaf. -/
def Root.getValueForLeafAt (T : Root) (p : Path) : Option Value :=
  (T.root.getLeafAtPath p).map (fun l => l.value)

/-- Modelled from the spec: hasError peeks at the pending error state. -/
def Root.hasError (T : Root) : Bool :=
  T.error.isSome

/-- Modelled from the spec: getError reports whether an error is pending
together with its message (empty when none is). -/
def Root.getError (T : Root) : Bool × String :=
  (T.error.isSome, match T.error with | some e => e.message | none => "")

/-- Modelled from the spec: registering a change callback on the leaf at
a path, through the Tree (as the Scene caller does). -/
def Root.addCallbackToLeafAt (T : Root) (p : Path) : Root × Option Nat :=
  match T.root.addCallbackAt p with
  | .ok q => ({ T with root := q.1 }, some q.2)
  | .error e => ({ T with error := some e }, none)

/-- Modelled from the spec: deregistering a change callback on the leaf
at a path. -/
def Root.removeCallbackFromLeafAt (T : Root) (p : Path) (cb : Nat) : Root × Bool :=
  match T.root.removeCallbackAt p cb with
  | .ok q => ({ T with root := q.1 }, q.2)
  | .error _ => (T, false)

/-- Modelled from the spec: getSeedList atomically drains and returns the
outgoing journal. -/
def Root.getSeedList (T : Root) : List Seed × Root :=
  (T.journal, { T with journal := [] })

/-- Modelled from the spec: addSeedsToQueue appends received Seeds to the
incoming Queue without applying them. -/
def Root.addSeedsToQueue (T : Root) (ss : List Seed) : Root :=
  { T with queue := T.queue ++ ss }

/-- Modelled from the spec: addSeedToQueue appends one locally
constructed Seed to the incoming Queue. -/
def Root.addSeedToQueue (T : Root) (task : Task) (p : Path) (args : Payload) (t : Nat) : Root :=
  { T with queue := T.queue ++ [⟨task, p, args, t⟩] }

/-- Modelled from the spec: dispatch of one Seed to the mutation or value
operation corresponding to its task kind, with the Seed's path, args and
timestamp. -/
def Branch.applySeed (b : Branch) (s : Seed) : Except TreeError (Branch × List Event) :=
  match s.task with
  | .addBranch => (b.createBranch s.path).map (fun r => (r, []))
  | .addLeaf =>
    match s.args with
    | .val v => (b.createLeaf s.path v s.timestamp).map (fun r => (r, []))
    | .empty => (b.createLeaf s.path emptyValue s.timestamp).map (fun r => (r, []))
    | _ => .error .malformedSeed
  | .removeBranch => (b.removeBranch s.path).map (fun r => (r, []))
  | .removeLeaf => (b.removeLeaf s.path).map (fun r => (r, []))
  | .renameBranch =>
    match s.args with
    | .newName m => (b.renameBranch s.path m).map (fun r => (r, []))
    | _ => .error .malformedSeed
  | .renameLeaf =>
    match s.args with
    | .newName m => (b.renameLeaf s.path m).map (fun r => (r, []))
    | _ => .error .malformedSeed
  | .setLeaf =>
    match s.args with
    | .val v => b.setLeaf s.path v s.timestamp
    | _ => .error .malformedSeed
  | .addSubtree =>
    match s.args with
    | .subtree c => (b.spliceBranch s.path c).map (fun r => (r, []))
    | _ => .error .malformedSeed

/-- Result of draining a seed list: the new root, the seeds to
re-journal, the last failure seen and the fired callback events. -/
structure DrainResult where
  root : Branch
  journal : List Seed
  error : Option TreeError
  events : List Event

/-- Keeps the later failure: the second error when there is one,
otherwise the first. -/
def lastErr (e1 e2 : Option TreeError) : Option TreeError :=
  match e2 with
  | some x => some x
  | none => e1

/-- Modelled from the spec: best-effort FIFO drain of a seed list.
When propagating, exactly the successfully applied seeds are collected
for re-journalling; the error kept is the last failure seen. -/
def drainQueue (b : Branch) (seeds : List Seed) (propagate : Bool) : DrainResult :=
  match seeds with
  | [] => ⟨b, [], none, []⟩
  | s :: rest =>
    match b.applySeed s with
    | .ok q =>
      let r := drainQueue q.1 rest propagate
      ⟨r.root, (if propagate then [s] else []) ++ r.journal, r.error, q.2 ++ r.events⟩
    | .error e =>
      let r := drainQueue b rest propagate
      ⟨r.root, r.journal, lastErr (some e) r.error, r.events⟩

/-- Modelled from the spec: processQueue drains the Queue in FIFO order,
dispatching every Seed best-effort; it resets the error state at the
start and leaves it holding the last failure seen; when propagate is
true every successfully applied Seed is re-appended to the outgoing
journal. -/
def Root.processQueue (T : Root) (propagate : Bool) : Root × List Event :=
  let r := drainQueue T.root T.queue propagate
  ({ root := r.root, journal := T.journal ++ r.journal, queue := [], error := r.error }, r.events)

/-- A direct mutation of the Tree through its path-addressed API, with
the instant at which it is issued; the generator language of local seed
histories. -/
inductive Op where
  | createBranch : Path → Nat → Op
  | createLeaf : Path → Value → Nat → Op
  | removeBranch : Path → Nat → Op
  | removeLeaf : Path → Nat → Op
  | renameBranch : Path → String → Nat → Op
  | renameLeaf : Path → String → Nat → Op
  | setLeaf : Path → Value → Nat → Op
  | cutBranch : Path → Nat → Op
  | cutLeaf : Path → Nat → Op
  | spliceBranch : Path → Branch → Nat → Op
  | spliceLeaf : Path → String → Value → Nat → Op

/-- Applies one direct mutation to a Tree (discarding the returned
status or cut piece). -/
def Root.applyOp (T : Root) (o : Op) : Root :=
  match o with
  | .createBranch p t => (T.createBranchAt p t).1
  | .createLeaf p v t => (T.createLeafAt p v t).1
  | .removeBranch p t => (T.removeBranchAt p t).1
  | .removeLeaf p t => (T.removeLeafAt p t).1
  | .renameBranch p m t => (T.renameBranchAt p m t).1
  | .renameLeaf p m t => (T.renameLeafAt p m t).1
  | .setLeaf p v t => (T.setValueForLeafAt p v t).1
  | .cutBranch p t => (T.cutBranchAt p t).1
  | .cutLeaf p t => (T.cutLeafAt p t).1
  | .spliceBranch pp c t => (T.addBranchAt pp c t).1
  | .spliceLeaf pp n v t => (T.addLeafAt pp ⟨n, v, t, [], 0⟩).1

/-- Applies a list of direct mutations in order. -/
def Root.runOps (T : Root) : List Op → Root
  | [] => T
  | o :: os => (T.applyOp o).runOps os

/-- The effect of one direct mutation on the root branch together with
the journal entries it produces (none when it fails). -/
def opStep (b : Branch) (o : Op) : Branch × List Seed :=
  let T := Root.applyOp { root := b, journal := [], queue := [], error := none } o
  (T.root, T.journal)

/-- Root branch and journal entries produced by a list of direct
mutations. -/
def opsRun (b : Branch) : List Op → Branch × List Seed
  | [] => (b, [])
  | o :: os =>
    let q := opStep b o
    let r := opsRun q.1 os
    (r.1, q.2 ++ r.2)

/-- The seeds of a list that apply successfully when replayed in order
from the given root (the ones re-journalled under propagation). -/
def appliedSeeds (b : Branch) : List Seed → List Seed
  | [] => []
  | s :: rest =>
    match b.applySeed s with
    | .ok q => s :: appliedSeeds q.1 rest
    | .error _ => appliedSeeds b rest

/-- The per-seed outcome of replaying a list of seeds in order from the
given root: none for an accepted seed, the failure for a rejected one. -/
def drainOutcomes (b : Branch) : List Seed → List (Option TreeError)
  | [] => []
  | s :: rest =>
    match b.applySeed s with
    | .ok q => none :: drainOutcomes q.1 rest
    | .error e => some e :: drainOutcomes b rest

/-- The last failure of an outcome list, none when every seed was
accepted. -/
def lastFailure : List (Option TreeError) → Option TreeError
  | [] => none
  | x :: xs => lastErr x (lastFailure xs)

/-- Best-effort application of one seed: the new root on success, the
unchanged root on failure. -/
def applyBestEffort (b : Branch) (s : Seed) : Branch :=
  match b.applySeed s with
  | .ok q => q.1
  | .error _ => b

/-- Concrete history for the divergence scenario: create branch b and
leaf b/l, then set the leaf to "one" at instant 100. -/
def scenarioOpsHigh : List Op :=
  [.createBranch ["b"] 1, .createLeaf ["b", "l"] emptyValue 2,
   .setLeaf ["b", "l"] (.str "one") 100]

/-- Concrete diverged history: same structure, but the leaf is set to
"two" at the earlier instant 50. -/
def scenarioOpsLow : List Op :=
  [.createBranch ["b"] 1, .createLeaf ["b", "l"] emptyValue 2,
   .setLeaf ["b", "l"] (.str "two") 50]

/-- A third Tree that enqueues the full journals of two histories in the
given arrival order and drains its queue. -/
def scenarioMerge (ops1 ops2 : List Op) : Root :=
  (Root.processQueue
    ((emptyRoot.addSeedsToQueue
        (Root.getSeedList (Root.runOps emptyRoot ops1)).1).addSeedsToQueue
      (Root.getSeedList (Root.runOps emptyRoot ops2)).1)
    false).1

/-- A concrete Tree with two sibling branches and two sibling leaves,
used to witness the structural failure cases. -/
def structWitnessTree : Root :=
  { root := .mk "" [.mk "a" [] [], .mk "b" [] []]
      [⟨"l", emptyValue, 1, [], 0⟩, ⟨"l2", emptyValue, 1, [], 0⟩],
    journal := [], queue := [], error := none }

/-- Concrete history for the move scenario: a branch with a set leaf
inside, and a top-level set leaf. -/
def moveOps : List Op :=
  [.createBranch ["a_branch"] 1, .createLeaf ["a_branch", "some_leaf"] emptyValue 2,
   .setLeaf ["a_branch", "some_leaf"] (.str "pie") 3,
   .createLeaf ["a_leaf"] emptyValue 4, .setLeaf ["a_leaf"] (.str "oakleaf") 5]

/-- The oak of the move scenario, journal already drained. -/
def moveOak : Root := (Root.getSeedList (Root.runOps emptyRoot moveOps)).2

/-- A tree built by replaying the oak seeds from empty. -/
def moveBeech : Root :=
  (Root.processQueue
    (emptyRoot.addSeedsToQueue (Root.getSeedList (Root.runOps emptyRoot moveOps)).1) false).1

/-- The branch piece cut out of the oak. -/
def movePieceB : Branch :=
  ((moveOak.cutBranchAt ["a_branch"] 6).2).getD (.mk "" [] [])

/-- The leaf piece cut out of the oak (after the branch cut). -/
def movePieceL : Leaf :=
  (((moveOak.cutBranchAt ["a_branch"] 6).1).cutLeafAt ["a_leaf"] 7).2.getD
    ⟨"", emptyValue, 0, [], 0⟩

/-- A tree that receives both cut pieces at its root. -/
def moveMaple : Root :=
  (((emptyRoot.addBranchAt [] movePieceB 8).1).addLeafAt [] movePieceL).1

/-- Concrete Tree for the callback scenario: one leaf a_leaf created at
instant 1. -/
def mapleCb : Root := (emptyRoot.createLeafAt ["a_leaf"] emptyValue 1).1

/-- The same Tree after registering a callback on a_leaf. -/
def mapleCb1 : Root := (mapleCb.addCallbackToLeafAt ["a_leaf"]).1

/-- The same Tree after an accepted set of a_leaf at instant 2. -/
def mapleCb2 : Root := (mapleCb1.setValueForLeafAt ["a_leaf"] (.str "ceci") 2).1

/-- The same Tree after removing the registered callback. -/
def mapleCb3 : Root := (mapleCb2.removeCallbackFromLeafAt ["a_leaf"] 0).1

/-! Basic lemmas about paths, resolution and spine rebuilding. -/

theorem splitLast_append (pp : Path) (n : String) : splitLast (pp ++ [n]) = some (pp, n) := by
  induction pp with
  | nil => rfl
  | cons a as ih =>
    cases as with
    | nil => rfl
    | cons b bs =>
      simp only [List.cons_append] at ih ⊢
      rw [splitLast, ih]
      rfl

theorem splitLast_some (x : String) (xs : Path) : ∃ q, splitLast (x :: xs) = some q := by
  induction xs generalizing x with
  | nil => exact ⟨([], x), rfl⟩
  | cons y ys ih =>
    obtain ⟨q, hq⟩ := ih y
    exact ⟨(x :: q.1, q.2), by rw [splitLast, hq]; rfl⟩

theorem branches_withBranches (b : Branch) (bs : List Branch) :
    (b.withBranches bs).branches = bs := by
  cases b; rfl

theorem leaves_withBranches (b : Branch) (bs : List Branch) :
    (b.withBranches bs).leaves = b.leaves := by
  cases b; rfl

theorem name_withBranches (b : Branch) (bs : List Branch) :
    (b.withBranches bs).name = b.name := by
  cases b; rfl

theorem branches_withLeaves (b : Branch) (ls : List Leaf) :
    (b.withLeaves ls).branches = b.branches := by
  cases b; rfl

theorem leaves_withLeaves (b : Branch) (ls : List Leaf) :
    (b.withLeaves ls).leaves = ls := by
  cases b; rfl

theorem name_withLeaves (b : Branch) (ls : List Leaf) :
    (b.withLeaves ls).name = b.name := by
  cases b; rfl

theorem findBranch_withLeaves (b : Branch) (ls : List Leaf) (n : String) :
    (b.withLeaves ls).findBranch n = b.findBranch n := by
  rw [Branch.findBranch, Branch.findBranch, branches_withLeaves]

theorem findLeaf_withBranches (b : Branch) (bs : List Branch) (n : String) :
    (b.withBranches bs).findLeaf n = b.findLeaf n := by
  rw [Branch.findLeaf, Branch.findLeaf, leaves_withBranches]

theorem modifyAt_eq {α : Type} (p : Path) (b : Branch)
    (f : Branch → Except TreeError (Branch × α)) :
    b.modifyAt p f =
      match b.resolve p with
      | none => .error .pathNotFound
      | some c =>
        match f c with
        | .error e => .error e
        | .ok q => .ok (b.replaceAt p q.1, q.2) := by
  induction p generalizing b with
  | nil =>
    simp only [Branch.modifyAt, Branch.resolve, Branch.replaceAt]
    cases f b with
    | error e => rfl
    | ok q => rfl
  | cons n rest ih =>
    simp only [Branch.modifyAt, Branch.resolve, Branch.replaceAt]
    cases hfb : b.findBranch n with
    | none => rfl
    | some c =>
      dsimp only
      rw [ih c]
      cases hr : c.resolve rest with
      | none => rfl
      | some d =>
        dsimp only
        cases f d with
        | error e => rfl
        | ok q => rfl

theorem updateAt_eq (p : Path) (b : Branch) (f : Branch → Except TreeError Branch) :
    b.updateAt p f =
      match b.resolve p with
      | none => .error .pathNotFound
      | some c =>
        match f c with
        | .error e => .error e
        | .ok c2 => .ok (b.replaceAt p c2) := by
  simp only [Branch.updateAt, modifyAt_eq]
  cases b.resolve p with
  | none => rfl
  | some c =>
    dsimp only
    cases f c with
    | error e => rfl
    | ok c2 => rfl

theorem resolve_append (b : Branch) (p q : Path) :
    b.resolve (p ++ q) =
      match b.resolve p with
      | none => none
      | some c => c.resolve q := by
  induction p generalizing b with
  | nil => rfl
  | cons n rest ih =>
    simp only [List.cons_append, Branch.resolve]
    cases b.findBranch n with
    | none => rfl
    | some c => exact ih c

theorem hasBranchIn_eq_resolve (b : Branch) (p : Path) :
    b.hasBranchIn p = (b.resolve p).isSome := by
  induction p generalizing b with
  | nil => rfl
  | cons n rest ih =>
    rw [Branch.hasBranchIn, Branch.resolve]
    cases b.findBranch n with
    | none => rfl
    | some c => exact ih c

theorem getLeafAtPath_cons_cons (b : Branch) (n m : String) (rest : Path) :
    b.getLeafAtPath (n :: m :: rest) =
      match b.findBranch n with
      | none => none
      | some c => c.getLeafAtPath (m :: rest) := by
  obtain ⟨q, hq⟩ := splitLast_some m rest
  simp only [Branch.getLeafAtPath, splitLast, hq, Option.map_some', Branch.resolve]
  cases b.findBranch n with
  | none => rfl
  | some c => rfl

theorem hasLeafIn_eq_getLeaf (b : Branch) (p : Path) :
    b.hasLeafIn p = (b.getLeafAtPath p).isSome := by
  induction p generalizing b with
  | nil => rfl
  | cons n rest ih =>
    cases rest with
    | nil =>
      simp only [Branch.hasLeafIn, Branch.getLeafAtPath, splitLast, Branch.resolve]
    | cons m rs =>
      rw [Branch.hasLeafIn, getLeafAtPath_cons_cons]
      cases b.findBranch n with
      | none => rfl
      | some c => exact ih c

theorem find?_cons_pos {α : Type} (p : α → Bool) (a : α) (l : List α) (h : p a = true) :
    (a :: l).find? p = some a := by
  simp [List.find?_cons, h]

theorem find?_cons_neg {α : Type} (p : α → Bool) (a : α) (l : List α) (h : p a = false) :
    (a :: l).find? p = l.find? p := by
  simp [List.find?_cons, h]

theorem find?_replaceFirst (n : String) (xs : List Branch) (c y : Branch)
    (hfind : xs.find? (fun x => x.name == n) = some c) (hy : y.name = c.name) :
    (replaceFirstBranch n y xs).find? (fun x => x.name == n) = some y := by
  induction xs with
  | nil => simp at hfind
  | cons a as ih =>
    by_cases h : (a.name == n) = true
    · rw [find?_cons_pos (fun x => x.name == n) a as h] at hfind
      simp only [Option.some.injEq] at hfind
      subst hfind
      rw [replaceFirstBranch, if_pos h]
      exact find?_cons_pos (fun x => x.name == n) y as
        (by show (y.name == n) = true; rw [hy]; exact h)
    · have hf := Bool.eq_false_iff.mpr h
      rw [find?_cons_neg (fun x => x.name == n) a as hf] at hfind
      rw [replaceFirstBranch, if_neg h, find?_cons_neg (fun x => x.name == n) a (replaceFirstBranch n y as) hf]
      exact ih hfind

theorem find?_filter_not {α : Type} (p : α → Bool) (xs : List α) :
    (xs.filter (fun x => !(p x))).find? p = none := by
  induction xs with
  | nil => rfl
  | cons a as ih =>
    by_cases h : p a = true
    · rw [List.filter_cons, if_neg (by simp [h])]
      exact ih
    · have hf := Bool.eq_false_iff.mpr h
      rw [List.filter_cons, if_pos (by simp [hf]), find?_cons_neg p a (as.filter (fun x => !(p x))) hf]
      exact ih

theorem find?_append_of_none {α : Type} (p : α → Bool) (xs ys : List α)
    (h : xs.find? p = none) : (xs ++ ys).find? p = ys.find? p := by
  rw [List.find?_append, h]
  rfl

theorem find?_map_update (n : String) (g : Leaf → Leaf) (ls : List Leaf)
    (hg : ∀ x, (g x).name = x.name) :
    (ls.map (fun x => if x.name == n then g x else x)).find? (fun x => x.name == n) =
      match ls.find? (fun x => x.name == n) with
      | none => none
      | some l => some (g l) := by
  induction ls with
  | nil => rfl
  | cons a as ih =>
    rw [List.map_cons]
    by_cases h : (a.name == n) = true
    · rw [if_pos h,
          find?_cons_pos (fun x => x.name == n) (g a)
            (as.map (fun x => if x.name == n then g x else x))
            (show ((g a).name == n) = true by rw [hg a]; exact h),
          find?_cons_pos (fun x => x.name == n) a as h]
    · have hf := Bool.eq_false_iff.mpr h
      rw [if_neg h,
          find?_cons_neg (fun x => x.name == n) a
            (as.map (fun x => if x.name == n then g x else x)) hf,
          find?_cons_neg (fun x => x.name == n) a as hf]
      exact ih

theorem replaceAt_name (b c2 : Branch) (n : String) (rest : Path) :
    (b.replaceAt (n :: rest) c2).name = b.name := by
  rw [Branch.replaceAt]
  cases b.findBranch n with
  | none => rfl
  | some c => exact name_withBranches ..

theorem replaceAt_name_of_resolve (b c c2 : Branch) (p : Path)
    (h : b.resolve p = some c) (hn : c2.name = c.name) :
    (b.replaceAt p c2).name = b.name := by
  cases p with
  | nil =>
    rw [Branch.resolve] at h
    simp only [Option.some.injEq] at h
    subst h
    rw [Branch.replaceAt, hn]
  | cons n rest => exact replaceAt_name ..

theorem resolve_replaceAt (p : Path) (b c c2 : Branch)
    (h : b.resolve p = some c) (hn : c2.name = c.name) :
    (b.replaceAt p c2).resolve p = some c2 := by
  induction p generalizing b with
  | nil =>
    rw [Branch.replaceAt]; rfl
  | cons n rest ih =>
    rw [Branch.resolve] at h
    cases hfb : b.findBranch n with
    | none => rw [hfb] at h; exact absurd h (by simp)
    | some d =>
      rw [hfb] at h
      rw [Branch.replaceAt, hfb, Branch.resolve]
      have hname : (d.replaceAt rest c2).name = d.name :=
        replaceAt_name_of_resolve d c c2 rest h hn
      have hfind : (b.withBranches
          (replaceFirstBranch n (d.replaceAt rest c2) b.branches)).findBranch n
          = some (d.replaceAt rest c2) := by
        rw [Branch.findBranch, branches_withBranches]
        refine find?_replaceFirst n b.branches d _ ?_ ?_
        · exact hfb
        · exact hname
      rw [hfind]
      exact ih d h

/-! Replay machinery: a journal produced by direct mutations replays
exactly, seed by seed, on a copy of the starting state. -/

theorem lastErr_none (e : Option TreeError) : lastErr none e = e := by
  cases e <;> rfl

theorem lastErr_assoc (a b c : Option TreeError) :
    lastErr (lastErr a b) c = lastErr a (lastErr b c) := by
  cases c <;> cases b <;> rfl

theorem drain_append (b : Branch) (xs ys : List Seed) (prop : Bool) :
    drainQueue b (xs ++ ys) prop =
      ⟨(drainQueue (drainQueue b xs prop).root ys prop).root,
       (drainQueue b xs prop).journal ++ (drainQueue (drainQueue b xs prop).root ys prop).journal,
       lastErr (drainQueue b xs prop).error (drainQueue (drainQueue b xs prop).root ys prop).error,
       (drainQueue b xs prop).events ++ (drainQueue (drainQueue b xs prop).root ys prop).events⟩ := by
  induction xs generalizing b with
  | nil =>
    simp only [List.nil_append, drainQueue]
    rw [lastErr_none]
  | cons s rest ih =>
    simp only [List.cons_append, drainQueue]
    cases b.applySeed s with
    | ok q =>
      dsimp only
      simp only [List.append_eq]
      rw [ih q.1]
      simp [List.append_assoc]
    | error e =>
      dsimp only
      simp only [List.append_eq]
      rw [ih b]
      simp [lastErr_assoc]

theorem cutBranch_removeBranch (b r c : Branch) (p : Path)
    (h : b.cutBranch p = .ok (r, c)) : b.removeBranch p = .ok r := by
  rw [Branch.cutBranch] at h
  rw [Branch.removeBranch]
  cases hs : splitLast p with
  | none => rw [hs] at h; exact absurd h (by simp)
  | some q =>
    rw [hs] at h
    dsimp only at h ⊢
    rw [modifyAt_eq] at h
    rw [updateAt_eq]
    cases hr : b.resolve q.1 with
    | none => rw [hr] at h; exact absurd h (by simp)
    | some par =>
      rw [hr] at h
      dsimp only at h ⊢
      cases hf : par.findBranch q.2 with
      | none => rw [hf] at h; exact absurd h (by simp)
      | some c0 =>
        rw [hf] at h
        dsimp only at h
        simp only [Except.ok.injEq, Prod.mk.injEq] at h
        rw [Branch.removeBranchUnder, if_pos (by rw [hf]; rfl)]
        dsimp only
        rw [h.1]

theorem cutLeaf_removeLeaf (b r : Branch) (l : Leaf) (p : Path)
    (h : b.cutLeaf p = .ok (r, l)) : b.removeLeaf p = .ok r := by
  rw [Branch.cutLeaf] at h
  rw [Branch.removeLeaf]
  cases hs : splitLast p with
  | none => rw [hs] at h; exact absurd h (by simp)
  | some q =>
    rw [hs] at h
    dsimp only at h ⊢
    rw [modifyAt_eq] at h
    rw [updateAt_eq]
    cases hr : b.resolve q.1 with
    | none => rw [hr] at h; exact absurd h (by simp)
    | some par =>
      rw [hr] at h
      dsimp only at h ⊢
      cases hf : par.findLeaf q.2 with
      | none => rw [hf] at h; exact absurd h (by simp)
      | some l0 =>
        rw [hf] at h
        dsimp only at h
        simp only [Except.ok.injEq, Prod.mk.injEq] at h
        rw [Branch.removeLeafUnder, if_pos (by rw [hf]; rfl)]
        dsimp only
        rw [h.1]

theorem spliceLeaf_createLeaf (b r : Branch) (pp : Path) (n : String) (v : Value) (t : Nat)
    (h : b.spliceLeaf pp ⟨n, v, t, [], 0⟩ = .ok r) :
    b.createLeaf (pp ++ [n]) v t = .ok r := by
  rw [Branch.createLeaf, splitLast_append]
  exact h

theorem opStep_replay (b : Branch) (o : Op) :
    ((opStep b o).2 = [] ∧ (opStep b o).1 = b) ∨
    (∃ s evs, (opStep b o).2 = [s] ∧ b.applySeed s = .ok ((opStep b o).1, evs)) := by
  cases o with
  | createBranch p t =>
    simp only [opStep, Root.applyOp, Root.createBranchAt, Root.onStruct]
    cases h : b.createBranch p with
    | error e => exact Or.inl ⟨rfl, rfl⟩
    | ok r =>
      refine Or.inr ⟨⟨.addBranch, p, .empty, t⟩, [], rfl, ?_⟩
      simp [Branch.applySeed, h, Except.map]
  | createLeaf p v t =>
    simp only [opStep, Root.applyOp, Root.createLeafAt, Root.onStruct]
    cases h : b.createLeaf p v t with
    | error e => exact Or.inl ⟨rfl, rfl⟩
    | ok r =>
      refine Or.inr ⟨⟨.addLeaf, p, .val v, t⟩, [], rfl, ?_⟩
      simp [Branch.applySeed, h, Except.map]
  | removeBranch p t =>
    simp only [opStep, Root.applyOp, Root.removeBranchAt, Root.onStruct]
    cases h : b.removeBranch p with
    | error e => exact Or.inl ⟨rfl, rfl⟩
    | ok r =>
      refine Or.inr ⟨⟨.removeBranch, p, .empty, t⟩, [], rfl, ?_⟩
      simp [Branch.applySeed, h, Except.map]
  | removeLeaf p t =>
    simp only [opStep, Root.applyOp, Root.removeLeafAt, Root.onStruct]
    cases h : b.removeLeaf p with
    | error e => exact Or.inl ⟨rfl, rfl⟩
    | ok r =>
      refine Or.inr ⟨⟨.removeLeaf, p, .empty, t⟩, [], rfl, ?_⟩
      simp [Branch.applySeed, h, Except.map]
  | renameBranch p m t =>
    simp only [opStep, Root.applyOp, Root.renameBranchAt, Root.onStruct]
    cases h : b.renameBranch p m with
    | error e => exact Or.inl ⟨rfl, rfl⟩
    | ok r =>
      refine Or.inr ⟨⟨.renameBranch, p, .newName m, t⟩, [], rfl, ?_⟩
      simp [Branch.applySeed, h, Except.map]
  | renameLeaf p m t =>
    simp only [opStep, Root.applyOp, Root.renameLeafAt, Root.onStruct]
    cases h : b.renameLeaf p m with
    | error e => exact Or.inl ⟨rfl, rfl⟩
    | ok r =>
      refine Or.inr ⟨⟨.renameLeaf, p, .newName m, t⟩, [], rfl, ?_⟩
      simp [Branch.applySeed, h, Except.map]
  | setLeaf p v t =>
    simp only [opStep, Root.applyOp, Root.setValueForLeafAt]
    cases h : b.setLeaf p v t with
    | error e => exact Or.inl ⟨rfl, rfl⟩
    | ok q =>
      refine Or.inr ⟨⟨.setLeaf, p, .val v, t⟩, q.2, rfl, ?_⟩
      simp [Branch.applySeed, h, Except.map]
  | cutBranch p t =>
    simp only [opStep, Root.applyOp, Root.cutBranchAt]
    cases h : b.cutBranch p with
    | error e => exact Or.inl ⟨rfl, rfl⟩
    | ok q =>
      refine Or.inr ⟨⟨.removeBranch, p, .empty, t⟩, [], rfl, ?_⟩
      have := cutBranch_removeBranch b q.1 q.2 p (by rw [h])
      simp [Branch.applySeed, this, Except.map]
  | cutLeaf p t =>
    simp only [opStep, Root.applyOp, Root.cutLeafAt]
    cases h : b.cutLeaf p with
    | error e => exact Or.inl ⟨rfl, rfl⟩
    | ok q =>
      refine Or.inr ⟨⟨.removeLeaf, p, .empty, t⟩, [], rfl, ?_⟩
      have := cutLeaf_removeLeaf b q.1 q.2 p (by rw [h])
      simp [Branch.applySeed, this, Except.map]
  | spliceBranch pp c t =>
    simp only [opStep, Root.applyOp, Root.addBranchAt, Root.onStruct]
    cases h : b.spliceBranch pp c with
    | error e => exact Or.inl ⟨rfl, rfl⟩
    | ok r =>
      refine Or.inr ⟨⟨.addSubtree, pp, .subtree c, t⟩, [], rfl, ?_⟩
      simp [Branch.applySeed, h, Except.map]
  | spliceLeaf pp n v t =>
    simp only [opStep, Root.applyOp, Root.addLeafAt, Root.onStruct]
    cases h : b.spliceLeaf pp ⟨n, v, t, [], 0⟩ with
    | error e => exact Or.inl ⟨rfl, rfl⟩
    | ok r =>
      refine Or.inr ⟨⟨.addLeaf, pp ++ [n], .val v, t⟩, [], rfl, ?_⟩
      have := spliceLeaf_createLeaf b r pp n v t h
      simp [Branch.applySeed, this, Except.map]

theorem drain_opStep (b : Branch) (o : Op) (prop : Bool) :
    ∃ evs, drainQueue b (opStep b o).2 prop =
      ⟨(opStep b o).1, if prop then (opStep b o).2 else [], none, evs⟩ := by
  rcases opStep_replay b o with ⟨h2, h1⟩ | ⟨s, evs, h2, h1⟩
  · refine ⟨[], ?_⟩
    rw [h2, h1]
    cases prop <;> rfl
  · refine ⟨evs, ?_⟩
    rw [h2]
    simp only [drainQueue, h1]
    cases prop <;> simp

theorem opsRun_replay (ops : List Op) (b : Branch) (prop : Bool) :
    ∃ evs, drainQueue b (opsRun b ops).2 prop =
      ⟨(opsRun b ops).1, if prop then (opsRun b ops).2 else [], none, evs⟩ := by
  induction ops generalizing b with
  | nil =>
    refine ⟨[], ?_⟩
    cases prop <;> rfl
  | cons o os ih =>
    obtain ⟨evs1, h1⟩ := drain_opStep b o prop
    obtain ⟨evs2, h2⟩ := ih (opStep b o).1
    refine ⟨evs1 ++ evs2, ?_⟩
    simp only [opsRun]
    rw [drain_append, h1]
    dsimp only
    rw [h2]
    dsimp only
    cases prop <;> simp [lastErr]

theorem applyOp_root (T : Root) (o : Op) : (T.applyOp o).root = (opStep T.root o).1 := by
  cases o <;>
    simp only [Root.applyOp, opStep, Root.createBranchAt, Root.createLeafAt, Root.removeBranchAt,
      Root.removeLeafAt, Root.renameBranchAt, Root.renameLeafAt, Root.setValueForLeafAt,
      Root.cutBranchAt, Root.cutLeafAt, Root.addBranchAt, Root.addLeafAt, Root.onStruct] <;>
    split <;> rfl

theorem applyOp_journal (T : Root) (o : Op) :
    (T.applyOp o).journal = T.journal ++ (opStep T.root o).2 := by
  cases o <;>
    simp only [Root.applyOp, opStep, Root.createBranchAt, Root.createLeafAt, Root.removeBranchAt,
      Root.removeLeafAt, Root.renameBranchAt, Root.renameLeafAt, Root.setValueForLeafAt,
      Root.cutBranchAt, Root.cutLeafAt, Root.addBranchAt, Root.addLeafAt, Root.onStruct] <;>
    split <;> simp

theorem applyOp_queue (T : Root) (o : Op) : (T.applyOp o).queue = T.queue := by
  cases o <;>
    simp only [Root.applyOp, opStep, Root.createBranchAt, Root.createLeafAt, Root.removeBranchAt,
      Root.removeLeafAt, Root.renameBranchAt, Root.renameLeafAt, Root.setValueForLeafAt,
      Root.cutBranchAt, Root.cutLeafAt, Root.addBranchAt, Root.addLeafAt, Root.onStruct] <;>
    split <;> rfl

theorem runOps_root (T : Root) (ops : List Op) :
    (T.runOps ops).root = (opsRun T.root ops).1 := by
  induction ops generalizing T with
  | nil => rfl
  | cons o os ih =>
    rw [Root.runOps, opsRun]
    dsimp only
    rw [ih, applyOp_root]

theorem runOps_journal (T : Root) (ops : List Op) :
    (T.runOps ops).journal = T.journal ++ (opsRun T.root ops).2 := by
  induction ops generalizing T with
  | nil => simp [Root.runOps, opsRun]
  | cons o os ih =>
    rw [Root.runOps, opsRun]
    dsimp only
    rw [ih, applyOp_journal, applyOp_root, List.append_assoc]

theorem runOps_queue (T : Root) (ops : List Op) : (T.runOps ops).queue = T.queue := by
  induction ops generalizing T with
  | nil => rfl
  | cons o os ih =>
    rw [Root.runOps]
    rw [ih, applyOp_queue]

/-! Characterizations of one queue drain: which seeds get re-journalled,
which error remains, and in which order roots are transformed. -/

theorem drain_journal_false (b : Branch) (seeds : List Seed) :
    (drainQueue b seeds false).journal = [] := by
  induction seeds generalizing b with
  | nil => rfl
  | cons s rest ih =>
    rw [drainQueue]
    cases b.applySeed s with
    | ok q => dsimp only; rw [if_neg (by simp), List.nil_append]; exact ih q.1
    | error e => dsimp only; exact ih b

theorem drain_journal_true (b : Branch) (seeds : List Seed) :
    (drainQueue b seeds true).journal = appliedSeeds b seeds := by
  induction seeds generalizing b with
  | nil => rfl
  | cons s rest ih =>
    rw [drainQueue, appliedSeeds]
    cases b.applySeed s with
    | ok q => dsimp only; rw [if_pos rfl, ih q.1]; rfl
    | error e => dsimp only; exact ih b

theorem drain_error_eq (b : Branch) (seeds : List Seed) (prop : Bool) :
    (drainQueue b seeds prop).error = lastFailure (drainOutcomes b seeds) := by
  induction seeds generalizing b with
  | nil => rfl
  | cons s rest ih =>
    rw [drainQueue, drainOutcomes]
    cases b.applySeed s with
    | ok q =>
      dsimp only
      rw [lastFailure, ih q.1, lastErr_none]
    | error e =>
      dsimp only
      rw [lastFailure, ih b]

theorem drain_root_foldl (b : Branch) (seeds : List Seed) (prop : Bool) :
    (drainQueue b seeds prop).root = seeds.foldl applyBestEffort b := by
  induction seeds generalizing b with
  | nil => rfl
  | cons s rest ih =>
    rw [drainQueue, List.foldl_cons]
    cases h : b.applySeed s with
    | ok q =>
      dsimp only
      rw [ih q.1, applyBestEffort, h]
    | error e =>
      dsimp only
      rw [ih b, applyBestEffort, h]

theorem lastFailure_all_none (xs : List (Option TreeError))
    (h : ∀ x ∈ xs, x = none) : lastFailure xs = none := by
  induction xs with
  | nil => rfl
  | cons x rest ih =>
    rw [lastFailure, ih (fun y hy => h y (List.mem_cons_of_mem x hy)),
        h x (List.mem_cons_self x rest)]
    rfl

/-- C1 helper: the Tree built from the empty Tree by replaying a journal
produced by a list of direct mutations carries exactly the root those
mutations produced. -/
theorem replay_journal_root (ops : List Op) (prop : Bool) :
    ((Root.processQueue
        (Root.addSeedsToQueue emptyRoot (Root.getSeedList (Root.runOps emptyRoot ops)).1)
        prop).1).root =
      (Root.runOps emptyRoot ops).root := by
  obtain ⟨evs, hd⟩ := opsRun_replay ops emptyRoot.root prop
  have hj : (Root.getSeedList (Root.runOps emptyRoot ops)).1 = (opsRun emptyRoot.root ops).2 := by
    show (Root.runOps emptyRoot ops).journal = _
    rw [runOps_journal]
    rfl
  rw [hj]
  show (drainQueue (Root.addSeedsToQueue emptyRoot (opsRun emptyRoot.root ops).2).root
      (Root.addSeedsToQueue emptyRoot (opsRun emptyRoot.root ops).2).queue prop).root = _
  show (drainQueue emptyRoot.root ((List.nil : List Seed) ++ (opsRun emptyRoot.root ops).2) prop).root = _
  rw [List.nil_append, hd]
  rw [runOps_root]

/-- C5 helper: the intermediary that replays a full journal from empty
with propagation re-journals exactly that seed list. -/
theorem replay_journal_journal (ops : List Op) :
    ((Root.processQueue
        (Root.addSeedsToQueue emptyRoot (Root.getSeedList (Root.runOps emptyRoot ops)).1)
        true).1).journal =
      (Root.getSeedList (Root.runOps emptyRoot ops)).1 := by
  obtain ⟨evs, hd⟩ := opsRun_replay ops emptyRoot.root true
  have hj : (Root.getSeedList (Root.runOps emptyRoot ops)).1 = (opsRun emptyRoot.root ops).2 := by
    show (Root.runOps emptyRoot ops).journal = _
    rw [runOps_journal]
    rfl
  rw [hj]
  show (List.nil : List Seed) ++
      (drainQueue emptyRoot.root ((List.nil : List Seed) ++ (opsRun emptyRoot.root ops).2)
        true).journal = _
  rw [List.nil_append, List.nil_append, hd]
  rfl

/-- C1: for all Trees A and B initialized to the same empty state, if B
enqueues (via addSeedsToQueue) the full seed list drained from A by
getSeedList and then calls processQueue, B becomes equal to A, where
Tree equality compares branch/leaf structure by name and Leaf values but
ignores timestamps. -/
theorem C1_convergence (ops : List Op) :
    treeEquiv (Root.runOps emptyRoot ops)
      ((Root.processQueue
          (Root.addSeedsToQueue emptyRoot (Root.getSeedList (Root.runOps emptyRoot ops)).1)
          false).1) := by
  show Branch.canon _ = Branch.canon _
  rw [replay_journal_root]

/-- C5: processQueue re-appends exactly the successfully applied Seeds
to the outgoing journal if and only if propagate is true: with
propagate=false the journal is left untouched, with propagate=true the
successfully applied seeds are appended, and an intermediary tree that
processes inbound seeds with propagate=true yields a seed list that
reconstructs the same tree on a downstream peer. -/
theorem C5_propagation :
    (∀ T : Root, ((T.processQueue false).1).journal = T.journal) ∧
    (∀ T : Root, ((T.processQueue true).1).journal = T.journal ++ appliedSeeds T.root T.queue) ∧
    (∀ ops : List Op,
      treeEquiv (Root.runOps emptyRoot ops)
        ((Root.processQueue
            (Root.addSeedsToQueue emptyRoot (Root.getSeedList (Root.runOps emptyRoot ops)).1)
            true).1) ∧
      treeEquiv
        ((Root.processQueue
            (Root.addSeedsToQueue emptyRoot (Root.getSeedList (Root.runOps emptyRoot ops)).1)
            true).1)
        ((Root.processQueue
            (Root.addSeedsToQueue emptyRoot
              ((Root.getSeedList
                  ((Root.processQueue
                      (Root.addSeedsToQueue emptyRoot
                        (Root.getSeedList (Root.runOps emptyRoot ops)).1)
                      true).1)).1))
            false).1)) := by
  refine ⟨?_, ?_, ?_⟩
  · intro T
    show T.journal ++ (drainQueue T.root T.queue false).journal = T.journal
    rw [drain_journal_false, List.append_nil]
  · intro T
    show T.journal ++ (drainQueue T.root T.queue true).journal = _
    rw [drain_journal_true]
  · intro ops
    constructor
    · show Branch.canon _ = Branch.canon _
      rw [replay_journal_root]
    · show Branch.canon _ = Branch.canon _
      have hm : (Root.getSeedList
          ((Root.processQueue
              (Root.addSeedsToQueue emptyRoot (Root.getSeedList (Root.runOps emptyRoot ops)).1)
              true).1)).1 = (Root.getSeedList (Root.runOps emptyRoot ops)).1 :=
        replay_journal_journal ops
      rw [hm, replay_journal_root, replay_journal_root]

/-- C6: within one processQueue call, all queued Seeds are applied
strictly in enqueue (FIFO) order — the resulting root is the left fold
of best-effort single-seed application over the queue, and
addSeedsToQueue appends at the back — each Seed dispatched to the
mutation or value operation corresponding to its task kind with the
Seed's path, args and timestamp; in particular an AddBranch seed
enqueued before an AddLeaf seed targeting a child of that branch makes
both succeed. -/
theorem C6_fifoOrder :
    (∀ (T : Root) (prop : Bool),
      ((T.processQueue prop).1).root = T.queue.foldl applyBestEffort T.root) ∧
    (∀ (T : Root) (ss : List Seed), (T.addSeedsToQueue ss).queue = T.queue ++ ss) ∧
    (∀ (b : Branch) (p : Path) (a : Payload) (t : Nat),
      b.applySeed ⟨.addBranch, p, a, t⟩ =
        (b.createBranch p).map (fun r => (r, ([] : List Event)))) ∧
    (∀ (b : Branch) (p : Path) (v : Value) (t : Nat),
      b.applySeed ⟨.addLeaf, p, .val v, t⟩ =
        (b.createLeaf p v t).map (fun r => (r, ([] : List Event)))) ∧
    (∀ (b : Branch) (p : Path) (v : Value) (t : Nat),
      b.applySeed ⟨.setLeaf, p, .val v, t⟩ = b.setLeaf p v t) ∧
    (∀ (b : Branch) (p : Path) (m : String) (t : Nat),
      b.applySeed ⟨.renameBranch, p, .newName m, t⟩ =
        (b.renameBranch p m).map (fun r => (r, ([] : List Event)))) ∧
    (∀ (b : Branch) (p : Path) (c : Branch) (t : Nat),
      b.applySeed ⟨.addSubtree, p, .subtree c, t⟩ =
        (b.spliceBranch p c).map (fun r => (r, ([] : List Event)))) ∧
    (((((emptyRoot.addSeedToQueue .addBranch ["some_object"] .empty 1).addSeedToQueue
          .addLeaf ["some_object", "a_leaf"] .empty 2).processQueue false).1).hasBranchAt
        ["some_object"] = true ∧
     ((((emptyRoot.addSeedToQueue .addBranch ["some_object"] .empty 1).addSeedToQueue
          .addLeaf ["some_object", "a_leaf"] .empty 2).processQueue false).1).hasLeafAt
        ["some_object", "a_leaf"] = true ∧
     ((((emptyRoot.addSeedToQueue .addBranch ["some_object"] .empty 1).addSeedToQueue
          .addLeaf ["some_object", "a_leaf"] .empty 2).processQueue false).1).error = none) := by
  refine ⟨?_, fun T ss => rfl, fun b p a t => rfl, fun b p v t => rfl, fun b p v t => rfl,
    fun b p m t => rfl, fun b p c t => rfl, ?_, ?_, ?_⟩
  · intro T prop
    exact drain_root_foldl T.root T.queue prop
  · rfl
  · rfl
  · rfl

/-- C7: processQueue resets the pending error state at the start of
every call (the result does not depend on the pending error), does not
halt on a failed seed (the drain continues on the unchanged root), and
on return the error state holds exactly the last failure seen during
the drain — in particular a drain in which every seed succeeds leaves
no pending error even if one was pending beforehand. -/
theorem C7_errorState :
    (∀ (T : Root) (e0 : Option TreeError) (prop : Bool),
      ((Root.processQueue { T with error := e0 } prop).1).error =
        ((T.processQueue prop).1).error) ∧
    (∀ (T : Root) (prop : Bool),
      ((T.processQueue prop).1).error = lastFailure (drainOutcomes T.root T.queue)) ∧
    (∀ (T : Root) (prop : Bool), (∀ x ∈ drainOutcomes T.root T.queue, x = none) →
      ((T.processQueue prop).1).error = none) ∧
    (∀ (b : Branch) (s : Seed) (rest : List Seed) (prop : Bool) (e : TreeError),
      b.applySeed s = .error e →
      drainQueue b (s :: rest) prop =
        ⟨(drainQueue b rest prop).root, (drainQueue b rest prop).journal,
         lastErr (some e) (drainQueue b rest prop).error,
         (drainQueue b rest prop).events⟩) := by
  refine ⟨fun T e0 prop => rfl, ?_, ?_, ?_⟩
  · intro T prop
    exact drain_error_eq T.root T.queue prop
  · intro T prop h
    show (drainQueue T.root T.queue prop).error = none
    rw [drain_error_eq, lastFailure_all_none _ h]
  · intro b s rest prop e h
    rw [drainQueue, h]

/-- C7 witness: the error-state theorem applied concretely: a drain in
which the single queued seed succeeds clears a previously pending error,
and a failing seed at the head of the queue leaves the rest of the drain
exactly as if it had been absent, recording its failure. -/
theorem C7_errorState_witness :
    ((Root.processQueue
        { root := .mk "" [] [], journal := [], queue := [⟨.addBranch, ["a"], .empty, 1⟩],
          error := some .notFound } false).1).error = none ∧
    drainQueue (.mk "" [] [])
        [⟨.removeBranch, ["zz"], .empty, 1⟩, ⟨.addBranch, ["a"], .empty, 2⟩] false =
      ⟨(drainQueue (.mk "" [] []) [⟨.addBranch, ["a"], .empty, 2⟩] false).root,
       (drainQueue (.mk "" [] []) [⟨.addBranch, ["a"], .empty, 2⟩] false).journal,
       lastErr (some .notFound)
         (drainQueue (.mk "" [] []) [⟨.addBranch, ["a"], .empty, 2⟩] false).error,
       (drainQueue (.mk "" [] []) [⟨.addBranch, ["a"], .empty, 2⟩] false).events⟩ := by
  constructor
  · exact C7_errorState.2.2.1 _ false (by
      intro x hx
      have hx2 : x ∈ [(none : Option TreeError)] := hx
      simpa using hx2)
  · exact C7_errorState.2.2.2 (.mk "" [] []) ⟨.removeBranch, ["zz"], .empty, 1⟩
      [⟨.addBranch, ["a"], .empty, 2⟩] false .notFound rfl

/-- C8: getSeedList atomically drains the outgoing journal (returning it
and leaving it empty, touching nothing else); the journal of a Tree
holds its starting journal followed by exactly the seeds generated by
its mutations in application order, each mutation contributing at most
one seed; a second drain after further mutations returns only the seeds
of those later mutations. -/
theorem C8_seedList :
    (∀ T : Root, (T.getSeedList).1 = T.journal ∧ ((T.getSeedList).2).journal = [] ∧
      ((T.getSeedList).2).root = T.root ∧ ((T.getSeedList).2).queue = T.queue ∧
      ((T.getSeedList).2).error = T.error) ∧
    (∀ (T : Root) (ops : List Op),
      (T.runOps ops).journal = T.journal ++ (opsRun T.root ops).2) ∧
    (∀ (T : Root) (ops : List Op),
      (Root.getSeedList (((T.getSeedList).2).runOps ops)).1 = (opsRun T.root ops).2) ∧
    (∀ (T : Root) (o : Op),
      (T.applyOp o).journal = T.journal ∨ ∃ s, (T.applyOp o).journal = T.journal ++ [s]) ∧
    (∀ (b : Branch) (o : Op) (os : List Op),
      (opsRun b (o :: os)).2 = (opStep b o).2 ++ (opsRun (opStep b o).1 os).2) := by
  refine ⟨fun T => ⟨rfl, rfl, rfl, rfl, rfl⟩, ?_, ?_, ?_, fun b o os => rfl⟩
  · intro T ops
    exact runOps_journal T ops
  · intro T ops
    show (((T.getSeedList).2).runOps ops).journal = _
    rw [runOps_journal]
    rfl
  · intro T o
    rcases opStep_replay T.root o with ⟨h2, _⟩ | ⟨s, evs, h2, _⟩
    · exact Or.inl (by rw [applyOp_journal, h2, List.append_nil])
    · exact Or.inr ⟨s, by rw [applyOp_journal, h2]⟩

/-- C10: getLeafAt, absent from the spec API surface but exercised by
the doctest suite, returns some Leaf exactly when a leaf exists at that
path (and none otherwise), giving direct access to the live Leaf
object. -/
theorem C10_getLeafAt (T : Root) (p : Path) :
    (T.getLeafAt p).isSome = T.hasLeafAt p ∧ T.getLeafAt p = T.root.getLeafAtPath p := by
  refine ⟨?_, rfl⟩
  show (T.root.getLeafAtPath p).isSome = T.root.hasLeafIn p
  rw [hasLeafIn_eq_getLeaf]

/-- C2 helper: what setLeaf does at a resolved leaf. -/
theorem setLeaf_resolved (T : Root) (p : Path) (v : Value) (t : Nat) (l : Leaf)
    (q : Path × String) (par : Branch)
    (hs : splitLast p = some q) (hr : T.root.resolve q.1 = some par)
    (hleaf : par.findLeaf q.2 = some l) :
    T.root.setLeaf p v t =
      (if l.timestamp < t then
        Except.ok (T.root.replaceAt q.1 (par.withLeaves (par.leaves.map (fun x =>
            if x.name == q.2 then { x with value := v, timestamp := t } else x))),
          l.callbacks.map (fun c => (⟨c, v, t⟩ : Event)))
      else Except.error .staleUpdate) := by
  simp only [Branch.setLeaf, hs]
  rw [modifyAt_eq, hr]
  dsimp only
  simp only [Branch.setLeafUnder, hleaf]
  by_cases ht : l.timestamp < t
  · rw [if_pos ht, if_pos ht]
  · rw [if_neg ht, if_neg ht]

/-- C2: for every Leaf with current timestamp t0, applying a SetLeaf
(directly or via a queued seed, which dispatches to the same operation)
with timestamp strictly greater than t0 updates the value, while one
with timestamp at most t0 leaves the tree untouched and records a
StaleUpdate error; replaying the seeds of two diverged trees in either
arrival order leaves the leaf holding the value with the greatest
timestamp and the tree reporting a pending error. -/
theorem C2_lastWriterWins :
    (∀ (T : Root) (p : Path) (v : Value) (t : Nat) (l : Leaf),
      T.getLeafAt p = some l →
      (l.timestamp < t →
        (T.setValueForLeafAt p v t).2.1 = true ∧
        ((T.setValueForLeafAt p v t).1).getLeafAt p =
          some { l with value := v, timestamp := t } ∧
        ((T.setValueForLeafAt p v t).1).journal =
          T.journal ++ [⟨.setLeaf, p, .val v, t⟩]) ∧
      (t ≤ l.timestamp →
        (T.setValueForLeafAt p v t).2.1 = false ∧
        ((T.setValueForLeafAt p v t).1).root = T.root ∧
        ((T.setValueForLeafAt p v t).1).journal = T.journal ∧
        ((T.setValueForLeafAt p v t).1).error = some .staleUpdate)) ∧
    (∀ (b : Branch) (p : Path) (v : Value) (t : Nat),
      b.applySeed ⟨.setLeaf, p, .val v, t⟩ = b.setLeaf p v t) ∧
    ((scenarioMerge scenarioOpsHigh scenarioOpsLow).getValueForLeafAt ["b", "l"] =
        some (.str "one") ∧
      (scenarioMerge scenarioOpsHigh scenarioOpsLow).hasError = true) ∧
    ((scenarioMerge scenarioOpsLow scenarioOpsHigh).getValueForLeafAt ["b", "l"] =
        some (.str "one") ∧
      (scenarioMerge scenarioOpsLow scenarioOpsHigh).hasError = true) := by
  refine ⟨?_, fun b p v t => rfl, ⟨rfl, rfl⟩, ⟨rfl, rfl⟩⟩
  intro T p v t l hleaf
  simp only [Root.getLeafAt, Branch.getLeafAtPath] at hleaf
  cases hs : splitLast p with
  | none => rw [hs] at hleaf; exact absurd hleaf (by simp)
  | some q =>
    rw [hs] at hleaf
    dsimp only at hleaf
    cases hr : T.root.resolve q.1 with
    | none => rw [hr] at hleaf; exact absurd hleaf (by simp)
    | some par =>
      rw [hr] at hleaf
      dsimp only at hleaf
      have hset := setLeaf_resolved T p v t l q par hs hr hleaf
      constructor
      · intro ht
        rw [if_pos ht] at hset
        refine ⟨?_, ?_, ?_⟩
        · simp only [Root.setValueForLeafAt, hset]
        · simp only [Root.setValueForLeafAt, hset]
          simp only [Root.getLeafAt, Branch.getLeafAtPath, hs]
          try dsimp only
          rw [resolve_replaceAt q.1 T.root par _ hr (name_withLeaves ..)]
          try dsimp only
          rw [Branch.findLeaf, leaves_withLeaves,
              find?_map_update q.2 (fun x => { x with value := v, timestamp := t }) par.leaves
                (fun x => rfl)]
          rw [Branch.findLeaf] at hleaf
          rw [hleaf]
        · simp only [Root.setValueForLeafAt, hset]
      · intro ht
        rw [if_neg (Nat.not_lt.mpr ht)] at hset
        refine ⟨?_, ?_, ?_, ?_⟩ <;> simp only [Root.setValueForLeafAt, hset]

/-- C2 witness: the last-writer-wins theorem applied to a concrete Tree
holding one leaf with timestamp 5: a write at timestamp 9 is accepted
and a write at timestamp 5 is rejected as a stale update. -/
theorem C2_lastWriterWins_witness :
    (((emptyRoot.createLeafAt ["x"] emptyValue 5).1).setValueForLeafAt ["x"] (.str "nv") 9).2.1
        = true ∧
    ((((emptyRoot.createLeafAt ["x"] emptyValue 5).1).setValueForLeafAt ["x"] (.str "nv") 5).2.1
        = false ∧
      ((((emptyRoot.createLeafAt ["x"] emptyValue 5).1).setValueForLeafAt
          ["x"] (.str "nv") 5).1).error = some .staleUpdate) := by
  have hmain := C2_lastWriterWins.1
  have h9 := (hmain (emptyRoot.createLeafAt ["x"] emptyValue 5).1 ["x"] (.str "nv") 9
    ⟨"x", emptyValue, 5, [], 0⟩ rfl).1 (by decide)
  have h5 := (hmain (emptyRoot.createLeafAt ["x"] emptyValue 5).1 ["x"] (.str "nv") 5
    ⟨"x", emptyValue, 5, [], 0⟩ rfl).2 (by decide)
  exact ⟨h9.1, h5.1, h5.2.2.2⟩

/-! C3 machinery: existence checks decide the structural mutations. -/

theorem createBranch_fails_of_branch (b : Branch) (p : Path) (h : b.hasBranchIn p = true) :
    ∃ e, b.createBranch p = .error e := by
  rcases List.eq_nil_or_concat p with rfl | ⟨pp, n, rfl⟩
  · exact ⟨.pathNotFound, rfl⟩
  · rw [List.concat_eq_append] at h ⊢
    rw [hasBranchIn_eq_resolve, resolve_append] at h
    cases hr : b.resolve pp with
    | none => rw [hr] at h; simp at h
    | some par =>
      rw [hr] at h
      dsimp only at h
      rw [Branch.resolve] at h
      cases hf : par.findBranch n with
      | none => rw [hf] at h; simp at h
      | some x =>
        refine ⟨.nameCollision, ?_⟩
        rw [Branch.createBranch, splitLast_append]
        dsimp only
        rw [updateAt_eq, hr]
        dsimp only
        rw [Branch.insertBranchUnder, if_pos (by simp [Branch.name, hf])]

theorem createLeaf_fails_of_leaf (b : Branch) (p : Path) (v : Value) (t : Nat)
    (h : b.hasLeafIn p = true) : ∃ e, b.createLeaf p v t = .error e := by
  rcases List.eq_nil_or_concat p with rfl | ⟨pp, n, rfl⟩
  · simp [Branch.hasLeafIn] at h
  · rw [List.concat_eq_append] at h ⊢
    rw [hasLeafIn_eq_getLeaf] at h
    simp only [Branch.getLeafAtPath, splitLast_append] at h
    cases hr : b.resolve pp with
    | none => rw [hr] at h; simp at h
    | some par =>
      rw [hr] at h
      dsimp only at h
      cases hf : par.findLeaf n with
      | none => rw [hf] at h; simp at h
      | some l =>
        refine ⟨.nameCollision, ?_⟩
        rw [Branch.createLeaf, splitLast_append]
        dsimp only
        rw [updateAt_eq, hr]
        dsimp only
        rw [Branch.insertLeafUnder, if_pos (by simp [hf])]

theorem removeBranch_fails_of_missing (b : Branch) (p : Path) (h : b.hasBranchIn p = false) :
    ∃ e, b.removeBranch p = .error e := by
  rcases List.eq_nil_or_concat p with rfl | ⟨pp, n, rfl⟩
  · simp [Branch.hasBranchIn] at h
  · rw [List.concat_eq_append] at h ⊢
    rw [hasBranchIn_eq_resolve, resolve_append] at h
    cases hr : b.resolve pp with
    | none =>
      refine ⟨.pathNotFound, ?_⟩
      rw [Branch.removeBranch, splitLast_append]
      dsimp only
      rw [updateAt_eq, hr]
    | some par =>
      rw [hr] at h
      dsimp only at h
      rw [Branch.resolve] at h
      cases hf : par.findBranch n with
      | some x => rw [hf] at h; simp [Branch.resolve] at h
      | none =>
        refine ⟨.notFound, ?_⟩
        rw [Branch.removeBranch, splitLast_append]
        dsimp only
        rw [updateAt_eq, hr]
        dsimp only
        rw [Branch.removeBranchUnder, if_neg (by simp [hf])]

theorem removeLeaf_fails_of_missing (b : Branch) (p : Path) (h : b.hasLeafIn p = false) :
    ∃ e, b.removeLeaf p = .error e := by
  rcases List.eq_nil_or_concat p with rfl | ⟨pp, n, rfl⟩
  · exact ⟨.pathNotFound, rfl⟩
  · rw [List.concat_eq_append] at h ⊢
    rw [hasLeafIn_eq_getLeaf] at h
    simp only [Branch.getLeafAtPath, splitLast_append] at h
    cases hr : b.resolve pp with
    | none =>
      refine ⟨.pathNotFound, ?_⟩
      rw [Branch.removeLeaf, splitLast_append]
      dsimp only
      rw [updateAt_eq, hr]
    | some par =>
      rw [hr] at h
      dsimp only at h
      cases hf : par.findLeaf n with
      | some l => rw [hf] at h; simp at h
      | none =>
        refine ⟨.notFound, ?_⟩
        rw [Branch.removeLeaf, splitLast_append]
        dsimp only
        rw [updateAt_eq, hr]
        dsimp only
        rw [Branch.removeLeafUnder, if_neg (by simp [hf])]

theorem renameBranch_fails_of_collision (b : Branch) (pp : Path) (n m : String)
    (h : b.hasBranchIn (pp ++ [m]) = true) : ∃ e, b.renameBranch (pp ++ [n]) m = .error e := by
  rw [hasBranchIn_eq_resolve, resolve_append] at h
  cases hr : b.resolve pp with
  | none => rw [hr] at h; simp at h
  | some par =>
    rw [hr] at h
    dsimp only at h
    rw [Branch.resolve] at h
    cases hf : par.findBranch m with
    | none => rw [hf] at h; simp at h
    | some x =>
      rw [Branch.renameBranch, splitLast_append]
      dsimp only
      rw [updateAt_eq, hr]
      dsimp only
      rw [Branch.renameBranchUnder]
      cases hfn : par.findBranch n with
      | none => exact ⟨.notFound, rfl⟩
      | some y =>
        dsimp only
        exact ⟨.nameCollision, by rw [if_pos (by simp [hf])]⟩

theorem renameLeaf_fails_of_collision (b : Branch) (pp : Path) (n m : String)
    (h : b.hasLeafIn (pp ++ [m]) = true) : ∃ e, b.renameLeaf (pp ++ [n]) m = .error e := by
  rw [hasLeafIn_eq_getLeaf] at h
  simp only [Branch.getLeafAtPath, splitLast_append] at h
  cases hr : b.resolve pp with
  | none => rw [hr] at h; simp at h
  | some par =>
    rw [hr] at h
    dsimp only at h
    cases hf : par.findLeaf m with
    | none => rw [hf] at h; simp at h
    | some x =>
      rw [Branch.renameLeaf, splitLast_append]
      dsimp only
      rw [updateAt_eq, hr]
      dsimp only
      rw [Branch.renameLeafUnder]
      cases hfn : par.findLeaf n with
      | none => exact ⟨.notFound, rfl⟩
      | some y =>
        dsimp only
        exact ⟨.nameCollision, by rw [if_pos (by simp [hf])]⟩

theorem onStruct_error_parts (T : Root) (res : Except TreeError Branch) (s : Seed)
    (e : TreeError) (he : res = .error e) :
    (T.onStruct res s).2 = false ∧ ((T.onStruct res s).1).root = T.root ∧
    ((T.onStruct res s).1).journal = T.journal ∧ ((T.onStruct res s).1).queue = T.queue ∧
    ((T.onStruct res s).1).error = some e := by
  rw [he]
  exact ⟨rfl, rfl, rfl, rfl, rfl⟩

/-- Shared shape of a failing structural mutation: returns false,
records the error, changes nothing else, and the identical retry fails
again. -/
theorem structOp_fail (T : Root) (g : Branch → Except TreeError Branch) (s : Seed)
    (hg : ∃ e, g T.root = .error e) :
    (T.onStruct (g T.root) s).2 = false ∧
    ((T.onStruct (g T.root) s).1).root = T.root ∧
    ((T.onStruct (g T.root) s).1).journal = T.journal ∧
    ((T.onStruct (g T.root) s).1).queue = T.queue ∧
    ((T.onStruct (g T.root) s).1).error.isSome = true ∧
    (((T.onStruct (g T.root) s).1).onStruct (g ((T.onStruct (g T.root) s).1).root) s).2
      = false := by
  obtain ⟨e, he⟩ := hg
  have h1 := onStruct_error_parts T (g T.root) s e he
  refine ⟨h1.1, h1.2.1, h1.2.2.1, h1.2.2.2.1, by rw [h1.2.2.2.2]; rfl, ?_⟩
  rw [h1.2.1, he]
  rfl

/-- C3: every structural mutation is decided by an existence check and
is idempotent-on-failure: creating a node that already exists, removing
one that does not exist, or renaming onto an existing same-namespace
sibling returns false, records an error, leaves the root, journal and
queue completely unchanged, and the same attempt repeated fails the same
way. -/
theorem C3_structuralFailure :
    (∀ (T : Root) (p : Path) (t : Nat), T.hasBranchAt p = true →
      (T.createBranchAt p t).2 = false ∧
      ((T.createBranchAt p t).1).root = T.root ∧
      ((T.createBranchAt p t).1).journal = T.journal ∧
      ((T.createBranchAt p t).1).queue = T.queue ∧
      ((T.createBranchAt p t).1).error.isSome = true ∧
      (((T.createBranchAt p t).1).createBranchAt p t).2 = false) ∧
    (∀ (T : Root) (p : Path) (v : Value) (t : Nat), T.hasLeafAt p = true →
      (T.createLeafAt p v t).2 = false ∧
      ((T.createLeafAt p v t).1).root = T.root ∧
      ((T.createLeafAt p v t).1).journal = T.journal ∧
      ((T.createLeafAt p v t).1).queue = T.queue ∧
      ((T.createLeafAt p v t).1).error.isSome = true ∧
      (((T.createLeafAt p v t).1).createLeafAt p v t).2 = false) ∧
    (∀ (T : Root) (p : Path) (t : Nat), T.hasBranchAt p = false →
      (T.removeBranchAt p t).2 = false ∧
      ((T.removeBranchAt p t).1).root = T.root ∧
      ((T.removeBranchAt p t).1).journal = T.journal ∧
      ((T.removeBranchAt p t).1).queue = T.queue ∧
      ((T.removeBranchAt p t).1).error.isSome = true ∧
      (((T.removeBranchAt p t).1).removeBranchAt p t).2 = false) ∧
    (∀ (T : Root) (p : Path) (t : Nat), T.hasLeafAt p = false →
      (T.removeLeafAt p t).2 = false ∧
      ((T.removeLeafAt p t).1).root = T.root ∧
      ((T.removeLeafAt p t).1).journal = T.journal ∧
      ((T.removeLeafAt p t).1).queue = T.queue ∧
      ((T.removeLeafAt p t).1).error.isSome = true ∧
      (((T.removeLeafAt p t).1).removeLeafAt p t).2 = false) ∧
    (∀ (T : Root) (pp : Path) (n m : String) (t : Nat),
      T.hasBranchAt (pp ++ [m]) = true →
      (T.renameBranchAt (pp ++ [n]) m t).2 = false ∧
      ((T.renameBranchAt (pp ++ [n]) m t).1).root = T.root ∧
      ((T.renameBranchAt (pp ++ [n]) m t).1).journal = T.journal ∧
      ((T.renameBranchAt (pp ++ [n]) m t).1).queue = T.queue ∧
      ((T.renameBranchAt (pp ++ [n]) m t).1).error.isSome = true ∧
      (((T.renameBranchAt (pp ++ [n]) m t).1).renameBranchAt (pp ++ [n]) m t).2 = false) ∧
    (∀ (T : Root) (pp : Path) (n m : String) (t : Nat),
      T.hasLeafAt (pp ++ [m]) = true →
      (T.renameLeafAt (pp ++ [n]) m t).2 = false ∧
      ((T.renameLeafAt (pp ++ [n]) m t).1).root = T.root ∧
      ((T.renameLeafAt (pp ++ [n]) m t).1).journal = T.journal ∧
      ((T.renameLeafAt (pp ++ [n]) m t).1).queue = T.queue ∧
      ((T.renameLeafAt (pp ++ [n]) m t).1).error.isSome = true ∧
      (((T.renameLeafAt (pp ++ [n]) m t).1).renameLeafAt (pp ++ [n]) m t).2 = false) := by
  refine ⟨?_, ?_, ?_, ?_, ?_, ?_⟩
  · intro T p t h
    exact structOp_fail T (fun b => b.createBranch p) ⟨.addBranch, p, .empty, t⟩
      (createBranch_fails_of_branch T.root p h)
  · intro T p v t h
    exact structOp_fail T (fun b => b.createLeaf p v t) ⟨.addLeaf, p, .val v, t⟩
      (createLeaf_fails_of_leaf T.root p v t h)
  · intro T p t h
    exact structOp_fail T (fun b => b.removeBranch p) ⟨.removeBranch, p, .empty, t⟩
      (removeBranch_fails_of_missing T.root p h)
  · intro T p t h
    exact structOp_fail T (fun b => b.removeLeaf p) ⟨.removeLeaf, p, .empty, t⟩
      (removeLeaf_fails_of_missing T.root p h)
  · intro T pp n m t h
    exact structOp_fail T (fun b => b.renameBranch (pp ++ [n]) m)
      ⟨.renameBranch, pp ++ [n], .newName m, t⟩
      (renameBranch_fails_of_collision T.root pp n m h)
  · intro T pp n m t h
    exact structOp_fail T (fun b => b.renameLeaf (pp ++ [n]) m)
      ⟨.renameLeaf, pp ++ [n], .newName m, t⟩
      (renameLeaf_fails_of_collision T.root pp n m h)

/-- C3 witness: the failure theorem applied to a concrete Tree holding
branches a, b and leaves l, l2: re-creating a or l, removing a missing
node, and renaming onto an existing sibling all return false and leave
the root unchanged. -/
theorem C3_structuralFailure_witness :
    ((structWitnessTree.createBranchAt ["a"] 9).2 = false ∧
      ((structWitnessTree.createBranchAt ["a"] 9).1).root = structWitnessTree.root) ∧
    (structWitnessTree.createLeafAt ["l"] emptyValue 9).2 = false ∧
    (structWitnessTree.removeBranchAt ["zz"] 9).2 = false ∧
    (structWitnessTree.removeLeafAt ["zz"] 9).2 = false ∧
    (structWitnessTree.renameBranchAt ["a"] "b" 9).2 = false ∧
    (structWitnessTree.renameLeafAt ["l"] "l2" 9).2 = false := by
  have h := C3_structuralFailure
  have h1 := h.1 structWitnessTree ["a"] 9 rfl
  have h2 := h.2.1 structWitnessTree ["l"] emptyValue 9 rfl
  have h3 := h.2.2.1 structWitnessTree ["zz"] 9 rfl
  have h4 := h.2.2.2.1 structWitnessTree ["zz"] 9 rfl
  have h5 := h.2.2.2.2.1 structWitnessTree [] "a" "b" 9 rfl
  have h6 := h.2.2.2.2.2 structWitnessTree [] "l" "l2" 9 rfl
  exact ⟨⟨h1.1, h1.2.1⟩, h2.1, h3.1, h4.1, h5.1, h6.1⟩

/-! C4 machinery and theorem: cut detaches with ownership and splice
restores the identical content. -/

theorem find?_filter_notP {α : Type} (p q : α → Bool) (xs : List α)
    (hpq : ∀ x, p x = true → q x = false) : (xs.filter q).find? p = none := by
  induction xs with
  | nil => rfl
  | cons a as ih =>
    by_cases h : q a = true
    · rw [List.filter_cons, if_pos (by simp [h])]
      have hpa : p a = false := by
        by_cases hp : p a = true
        · rw [hpq a hp] at h
          exact absurd h (by simp)
        · exact Bool.eq_false_iff.mpr hp
      rw [find?_cons_neg p a _ hpa]
      exact ih
    · rw [List.filter_cons, if_neg (by simp [Bool.eq_false_iff.mpr h])]
      exact ih

/-- C4: for every branch or leaf X living at a path, cutBranchAt and
cutLeafAt detach X and return it to the caller (a non-null handle; the
source tree no longer contains it and the equivalent removal is
journalled), addBranchAt and addLeafAt splice it back so that X is
reachable under the target parent with identical content, and a tree
that received the cut pieces equals the tree that held the original
content. -/
theorem C4_cutAndSplice :
    (∀ (T : Root) (pp : Path) (n : String) (t : Nat) (X : Branch),
      T.root.resolve (pp ++ [n]) = some X →
      (T.cutBranchAt (pp ++ [n]) t).2 = some X ∧
      ((T.cutBranchAt (pp ++ [n]) t).1).hasBranchAt (pp ++ [n]) = false ∧
      ((T.cutBranchAt (pp ++ [n]) t).1).journal =
        T.journal ++ [⟨.removeBranch, pp ++ [n], .empty, t⟩]) ∧
    (∀ (T : Root) (pp : Path) (n : String) (t : Nat) (L : Leaf),
      T.getLeafAt (pp ++ [n]) = some L →
      (T.cutLeafAt (pp ++ [n]) t).2 = some L ∧
      ((T.cutLeafAt (pp ++ [n]) t).1).hasLeafAt (pp ++ [n]) = false ∧
      ((T.cutLeafAt (pp ++ [n]) t).1).journal =
        T.journal ++ [⟨.removeLeaf, pp ++ [n], .empty, t⟩]) ∧
    (∀ (T : Root) (pp : Path) (t : Nat) (X par : Branch),
      T.root.resolve pp = some par →
      par.findBranch X.name = none → par.findLeaf X.name = none →
      (T.addBranchAt pp X t).2 = true ∧
      ((T.addBranchAt pp X t).1).root.resolve (pp ++ [X.name]) = some X) ∧
    (∀ (T : Root) (pp : Path) (L : Leaf) (par : Branch),
      T.root.resolve pp = some par →
      par.findBranch L.name = none → par.findLeaf L.name = none →
      (T.addLeafAt pp L).2 = true ∧
      ((T.addLeafAt pp L).1).getLeafAt (pp ++ [L.name]) = some L) ∧
    treeEquiv moveMaple moveBeech := by
  refine ⟨?_, ?_, ?_, ?_, ?_⟩
  · intro T pp n t X h
    rw [resolve_append] at h
    cases hr : T.root.resolve pp with
    | none => rw [hr] at h; exact absurd h (by simp)
    | some par =>
      rw [hr] at h
      dsimp only at h
      rw [Branch.resolve] at h
      cases hf : par.findBranch n with
      | none => rw [hf] at h; exact absurd h (by simp)
      | some c =>
        rw [hf] at h
        dsimp only at h
        rw [Branch.resolve] at h
        have hcx : c = X := by simpa using h
        subst hcx
        have hcut : T.root.cutBranch (pp ++ [n]) =
            .ok (T.root.replaceAt pp
              (par.withBranches (par.branches.filter (fun x => !(x.name == n)))), c) := by
          simp only [Branch.cutBranch, splitLast_append]
          rw [modifyAt_eq, hr]
          dsimp only
          rw [hf]
        refine ⟨?_, ?_, ?_⟩
        · simp only [Root.cutBranchAt, hcut]
        · show Branch.hasBranchIn _ _ = false
          simp only [Root.cutBranchAt, hcut]
          rw [hasBranchIn_eq_resolve, resolve_append,
              resolve_replaceAt pp T.root par _ hr (name_withBranches ..)]
          dsimp only
          rw [Branch.resolve, Branch.findBranch, branches_withBranches,
              find?_filter_notP (fun x => x.name == n) (fun x => !(x.name == n)) par.branches
                (fun x hx => by simp [hx])]
          rfl
        · simp only [Root.cutBranchAt, hcut]
  · intro T pp n t L h
    simp only [Root.getLeafAt, Branch.getLeafAtPath, splitLast_append] at h
    cases hr : T.root.resolve pp with
    | none => rw [hr] at h; exact absurd h (by simp)
    | some par =>
      rw [hr] at h
      dsimp only at h
      have hcut : T.root.cutLeaf (pp ++ [n]) =
          .ok (T.root.replaceAt pp
            (par.withLeaves (par.leaves.filter (fun x => !(x.name == n)))), L) := by
        simp only [Branch.cutLeaf, splitLast_append]
        rw [modifyAt_eq, hr]
        dsimp only
        rw [h]
      refine ⟨?_, ?_, ?_⟩
      · simp only [Root.cutLeafAt, hcut]
      · show Branch.hasLeafIn _ _ = false
        simp only [Root.cutLeafAt, hcut]
        rw [hasLeafIn_eq_getLeaf]
        simp only [Branch.getLeafAtPath, splitLast_append]
        rw [resolve_replaceAt pp T.root par _ hr (name_withLeaves ..)]
        dsimp only
        rw [Branch.findLeaf, leaves_withLeaves,
            find?_filter_notP (fun x => x.name == n) (fun x => !(x.name == n)) par.leaves
              (fun x hx => by simp [hx])]
        rfl
      · simp only [Root.cutLeafAt, hcut]
  · intro T pp t X par hr hnb hnl
    have hsp : T.root.spliceBranch pp X =
        .ok (T.root.replaceAt pp (par.withBranches (par.branches ++ [X]))) := by
      rw [Branch.spliceBranch, updateAt_eq, hr]
      dsimp only
      rw [Branch.insertBranchUnder, if_neg (by simp [hnb, hnl])]
    constructor
    · simp only [Root.addBranchAt, Root.onStruct, hsp]
    · simp only [Root.addBranchAt, Root.onStruct, hsp]
      try dsimp only
      rw [resolve_append, resolve_replaceAt pp T.root par _ hr (name_withBranches ..)]
      dsimp only
      rw [Branch.findBranch] at hnb
      rw [Branch.resolve, Branch.findBranch, branches_withBranches,
          find?_append_of_none _ _ _ hnb,
          find?_cons_pos (fun c => c.name == X.name) X [] (by simp)]
      rfl
  · intro T pp L par hr hnb hnl
    have hsp : T.root.spliceLeaf pp L =
        .ok (T.root.replaceAt pp (par.withLeaves (par.leaves ++ [L]))) := by
      rw [Branch.spliceLeaf, updateAt_eq, hr]
      dsimp only
      rw [Branch.insertLeafUnder, if_neg (by simp [hnb, hnl])]
    constructor
    · simp only [Root.addLeafAt, Root.onStruct, hsp]
    · simp only [Root.addLeafAt, Root.onStruct, hsp]
      try dsimp only
      simp only [Root.getLeafAt, Branch.getLeafAtPath, splitLast_append]
      rw [resolve_replaceAt pp T.root par _ hr (name_withLeaves ..)]
      dsimp only
      rw [Branch.findLeaf] at hnl
      rw [Branch.findLeaf, leaves_withLeaves, find?_append_of_none _ _ _ hnl,
          find?_cons_pos (fun l => l.name == L.name) L [] (by simp)]
  · have h : moveMaple.root = moveBeech.root := rfl
    exact congrArg Branch.canon h

/-- C4 witness: the cut-and-splice theorem applied concretely: cutting
branch a out of a tree that holds it returns it and removes it, and
splicing it into an empty tree makes it reachable at the root. -/
theorem C4_cutAndSplice_witness :
    (((structWitnessTree.cutBranchAt ["a"] 9).2 = some (.mk "a" [] []) ∧
      ((structWitnessTree.cutBranchAt ["a"] 9).1).hasBranchAt ["a"] = false) ∧
     ((structWitnessTree.cutLeafAt ["l"] 9).2 = some ⟨"l", emptyValue, 1, [], 0⟩)) ∧
    ((emptyRoot.addBranchAt [] (.mk "a" [] []) 9).2 = true ∧
      ((emptyRoot.addBranchAt [] (.mk "a" [] []) 9).1).root.resolve ["a"] =
        some (.mk "a" [] []) ∧
      (emptyRoot.addLeafAt [] ⟨"l", emptyValue, 1, [], 0⟩).2 = true) := by
  have h := C4_cutAndSplice
  have h1 := h.1 structWitnessTree [] "a" 9 (.mk "a" [] []) rfl
  have h2 := h.2.1 structWitnessTree [] "l" 9 ⟨"l", emptyValue, 1, [], 0⟩ rfl
  have h3 := h.2.2.1 emptyRoot [] 9 (.mk "a" [] []) (.mk "" [] []) rfl rfl rfl
  have h4 := h.2.2.2.1 emptyRoot [] ⟨"l", emptyValue, 1, [], 0⟩ (.mk "" [] []) rfl rfl rfl
  exact ⟨⟨⟨h1.1, h1.2.1⟩, h2.1⟩, h3.1, h3.2, h4.1⟩

/-! C9 machinery and theorem: the callback registry. -/

theorem removeCallback_name (l : Leaf) (cb : Nat) : ((l.removeCallback cb).1).name = l.name := by
  rw [Leaf.removeCallback]
  by_cases h : l.callbacks.contains cb = true
  · rw [if_pos h]
  · rw [if_neg h]

/-- C9: a callback registered on a Leaf via addCallback receives a fresh
id; an accepted SetLeaf on that leaf fires exactly one event per
registered id, each carrying the exact new Value and its timestamp;
removeCallback returns true exactly for a registered id and
deregisters it, so that after removal the id never appears among the
events of subsequent accepted SetLeaf operations. -/
theorem C9_callbacks :
    (∀ l : Leaf, (l.addCallback).2 = l.nextCallback ∧
      ((l.addCallback).1).callbacks = l.callbacks ++ [l.nextCallback]) ∧
    (∀ (l : Leaf) (cb : Nat), (l.removeCallback cb).2 = l.callbacks.contains cb) ∧
    (∀ (l : Leaf) (cb : Nat), ((l.removeCallback cb).1).callbacks.count cb = 0) ∧
    (∀ (T : Root) (p : Path) (v : Value) (t : Nat) (l : Leaf),
      T.getLeafAt p = some l → l.timestamp < t →
      (T.setValueForLeafAt p v t).2.2 = l.callbacks.map (fun c => ⟨c, v, t⟩)) ∧
    (∀ (cbs : List Nat) (cb : Nat) (v : Value) (t : Nat),
      (cbs.map (fun c => (⟨c, v, t⟩ : Event))).countP (fun ev => ev.cb == cb) =
        cbs.count cb) ∧
    (∀ (T : Root) (p : Path) (l : Leaf),
      T.getLeafAt p = some l →
      (T.addCallbackToLeafAt p).2 = some (l.addCallback).2 ∧
      ((T.addCallbackToLeafAt p).1).getLeafAt p = some (l.addCallback).1) ∧
    (∀ (T : Root) (p : Path) (cb : Nat) (l : Leaf),
      T.getLeafAt p = some l →
      (T.removeCallbackFromLeafAt p cb).2 = l.callbacks.contains cb ∧
      ((T.removeCallbackFromLeafAt p cb).1).getLeafAt p = some (l.removeCallback cb).1) := by
  refine ⟨fun l => ⟨rfl, rfl⟩, ?_, ?_, ?_, ?_, ?_, ?_⟩
  · intro l cb
    by_cases hm : cb ∈ l.callbacks
    · simp [Leaf.removeCallback, hm]
    · simp [Leaf.removeCallback, hm]
  · intro l cb
    by_cases hm : cb ∈ l.callbacks
    · simp only [Leaf.removeCallback]
      rw [if_pos (by simpa using hm)]
      rw [List.count_eq_zero]
      intro hmem
      rw [List.mem_filter] at hmem
      simp at hmem
    · simp only [Leaf.removeCallback]
      rw [if_neg (by simpa using hm)]
      exact List.count_eq_zero.mpr hm
  · intro T p v t l hleaf ht
    simp only [Root.getLeafAt, Branch.getLeafAtPath] at hleaf
    cases hs : splitLast p with
    | none => rw [hs] at hleaf; exact absurd hleaf (by simp)
    | some q =>
      rw [hs] at hleaf
      dsimp only at hleaf
      cases hr : T.root.resolve q.1 with
      | none => rw [hr] at hleaf; exact absurd hleaf (by simp)
      | some par =>
        rw [hr] at hleaf
        dsimp only at hleaf
        have hset := setLeaf_resolved T p v t l q par hs hr hleaf
        rw [if_pos ht] at hset
        simp only [Root.setValueForLeafAt, hset]
  · intro cbs cb v t
    rw [List.countP_map]
    rfl
  · intro T p l hleaf
    simp only [Root.getLeafAt, Branch.getLeafAtPath] at hleaf
    cases hs : splitLast p with
    | none => rw [hs] at hleaf; exact absurd hleaf (by simp)
    | some q =>
      rw [hs] at hleaf
      dsimp only at hleaf
      cases hr : T.root.resolve q.1 with
      | none => rw [hr] at hleaf; exact absurd hleaf (by simp)
      | some par =>
        rw [hr] at hleaf
        dsimp only at hleaf
        have hadd : T.root.addCallbackAt p =
            .ok (T.root.replaceAt q.1 (par.withLeaves (par.leaves.map (fun x =>
                if x.name == q.2 then (x.addCallback).1 else x))), (l.addCallback).2) := by
          simp only [Branch.addCallbackAt, hs]
          rw [modifyAt_eq, hr]
          dsimp only
          rw [hleaf]
        constructor
        · simp only [Root.addCallbackToLeafAt, hadd]
        · simp only [Root.addCallbackToLeafAt, hadd]
          simp only [Root.getLeafAt, Branch.getLeafAtPath, hs]
          try dsimp only
          rw [resolve_replaceAt q.1 T.root par _ hr (name_withLeaves ..)]
          try dsimp only
          rw [Branch.findLeaf, leaves_withLeaves,
              find?_map_update q.2 (fun x => (x.addCallback).1) par.leaves (fun x => rfl)]
          rw [Branch.findLeaf] at hleaf
          rw [hleaf]
  · intro T p cb l hleaf
    simp only [Root.getLeafAt, Branch.getLeafAtPath] at hleaf
    cases hs : splitLast p with
    | none => rw [hs] at hleaf; exact absurd hleaf (by simp)
    | some q =>
      rw [hs] at hleaf
      dsimp only at hleaf
      cases hr : T.root.resolve q.1 with
      | none => rw [hr] at hleaf; exact absurd hleaf (by simp)
      | some par =>
        rw [hr] at hleaf
        dsimp only at hleaf
        have hrem : T.root.removeCallbackAt p cb =
            .ok (T.root.replaceAt q.1 (par.withLeaves (par.leaves.map (fun x =>
                if x.name == q.2 then (x.removeCallback cb).1 else x))),
              (l.removeCallback cb).2) := by
          simp only [Branch.removeCallbackAt, hs]
          rw [modifyAt_eq, hr]
          dsimp only
          rw [hleaf]
        constructor
        · simp only [Root.removeCallbackFromLeafAt, hrem]
          by_cases hm : cb ∈ l.callbacks
          · simp [Leaf.removeCallback, hm]
          · simp [Leaf.removeCallback, hm]
        · simp only [Root.removeCallbackFromLeafAt, hrem]
          simp only [Root.getLeafAt, Branch.getLeafAtPath, hs]
          try dsimp only
          rw [resolve_replaceAt q.1 T.root par _ hr (name_withLeaves ..)]
          try dsimp only
          rw [Branch.findLeaf, leaves_withLeaves,
              find?_map_update q.2 (fun x => (x.removeCallback cb).1) par.leaves
                (fun x => removeCallback_name x cb)]
          rw [Branch.findLeaf] at hleaf
          rw [hleaf]

/-- C9 witness: the callback theorem applied to the concrete scenario of
the doctest: registering on a_leaf yields id 0, an accepted set fires
exactly that callback with the exact value and timestamp, removal
returns true, and a later accepted set fires nothing. -/
theorem C9_callbacks_witness :
    (mapleCb.addCallbackToLeafAt ["a_leaf"]).2 = some 0 ∧
    (mapleCb1.setValueForLeafAt ["a_leaf"] (.str "ceci") 2).2.2 =
      [⟨0, .str "ceci", 2⟩] ∧
    (mapleCb2.removeCallbackFromLeafAt ["a_leaf"] 0).2 = true ∧
    (mapleCb3.setValueForLeafAt ["a_leaf"] (.str "plus") 3).2.2 = [] := by
  have h := C9_callbacks
  have h6 := h.2.2.2.2.2.1 mapleCb ["a_leaf"] ⟨"a_leaf", emptyValue, 1, [], 0⟩ rfl
  have h4a := h.2.2.2.1 mapleCb1 ["a_leaf"] (.str "ceci") 2
    ⟨"a_leaf", emptyValue, 1, [0], 1⟩ rfl (by decide)
  have h7 := h.2.2.2.2.2.2 mapleCb2 ["a_leaf"] 0 ⟨"a_leaf", .str "ceci", 2, [0], 1⟩ rfl
  have h4b := h.2.2.2.1 mapleCb3 ["a_leaf"] (.str "plus") 3
    ⟨"a_leaf", .str "ceci", 2, [], 1⟩ rfl (by decide)
  refine ⟨?_, ?_, ?_, ?_⟩
  · rw [h6.1]
    rfl
  · rw [h4a]
    rfl
  · rw [h7.1]
    rfl
  · rw [h4b]
    rfl

end Splash
